import Mathlib

/-
  Verification development for the claim-extraction pipeline of the
  ESG_Greenwashing repository (src/agents/agent_a.py).

  Shallow embedding conventions:
  * Python `str` is Lean `String`; lengths and slices are code points, as in
    Python.
  * Whitespace classes (`re` \s, `str.strip`) are modelled by the ASCII
    whitespace characters; the Unicode-only whitespace code points are not
    modelled (none of the concrete inputs below contain them).
  * Python floats (FAISS similarity scores) are modelled by rationals `Rat`:
    score arithmetic in the source is only summation and comparison.
  * JSON numbers are modelled as integers; a float literal is treated as a
    parse failure (floating point is outside the embedding).  Citation ids,
    the only numbers the pipeline consumes, are integers.
  * Fallible dynamic (duck-typed) Python code is modelled in `Except PyErr`;
    the uncaught exceptions CPython would raise (AttributeError on a missing
    method, TypeError on a non-iterable or unhashable value) become `.error`.
-/

namespace AgentA

/-! ## Python string primitives -/

/-- ASCII whitespace, the characters of Python's `\s` class that occur in the
    development (Unicode-only whitespace omitted). -/
def isSpaceCh (c : Char) : Bool :=
  c = ' ' || c = '\t' || c = '\n' || c = '\r' || c = '\x0b' || c = '\x0c'

/-- Strip leading and trailing whitespace from a character list
    (Python `str.strip()`). -/
def stripChars (cs : List Char) : List Char :=
  ((cs.dropWhile isSpaceCh).reverse.dropWhile isSpaceCh).reverse

/-- Python `str.strip()`. -/
def pyStrip (s : String) : String :=
  ⟨stripChars s.data⟩

/-- Collapse whitespace runs to single spaces; the flag records whether the
    previous character belonged to a whitespace run. -/
def collapseWsAux : Bool → List Char → List Char
  | _, [] => []
  | prevSp, c :: cs =>
    if isSpaceCh c then
      if prevSp then collapseWsAux true cs else ' ' :: collapseWsAux true cs
    else c :: collapseWsAux false cs

/-- Collapse every maximal whitespace run to a single space
    (the `re.sub(r"\s+", " ", s)` step of `normalize_ws`). -/
def collapseWs (cs : List Char) : List Char :=
  collapseWsAux false cs

/-- Model of `normalize_ws` from agent_a.py: collapse whitespace runs to one space,
    then strip both ends. -/
def normalize_ws (s : String) : String :=
  ⟨stripChars (collapseWs s.data)⟩

/-- Model of `truncate` from agent_a.py: normalize whitespace, then cut to `maxLen`
    code points and add an ellipsis when the text is longer than `maxLen`
    (and `maxLen` is truthy, i.e. nonzero). -/
def truncate (s : String) (maxLen : Nat) : String :=
  let t := normalize_ws s
  if maxLen ≠ 0 ∧ maxLen < t.length then ⟨t.data.take maxLen⟩ ++ "..." else t

/-- Does `lead` begin `l`? (Python `str.startswith` over characters.) -/
def leadsList : List Char → List Char → Bool
  | [], _ => true
  | _ :: _, [] => false
  | a :: as, b :: bs => a = b && leadsList as bs

/-- Substring containment over characters (Python `needle in hay`). -/
def subList (needle : List Char) : List Char → Bool
  | [] => leadsList needle []
  | c :: cs => leadsList needle (c :: cs) || subList needle cs

/-- Python `needle in hay` for strings. -/
def strContainsSub (needle hay : String) : Bool :=
  subList needle.data hay.data

/-! ## The JSON value model -/

/-- JSON values as produced by `json.loads`, plus `.rat` for the Python float
    similarity scores that the enricher writes into claim dictionaries (the
    parser itself never produces `.rat`). -/
inductive Json where
  | null : Json
  | bool (b : Bool) : Json
  | num (n : Int) : Json
  | str (s : String) : Json
  | rat (q : Rat) : Json
  | arr (elems : List Json) : Json
  | obj (entries : List (String × Json)) : Json

/-! ## JSON parsing (model of `json.loads` restricted to integer numerals) -/

/-- JSON structural whitespace (the exact set `json.loads` skips). -/
def isJsonWs (c : Char) : Bool :=
  c = ' ' || c = '\t' || c = '\n' || c = '\r'

def skipWs (cs : List Char) : List Char :=
  cs.dropWhile isJsonWs

def hexVal (c : Char) : Option Nat :=
  if '0' ≤ c ∧ c ≤ '9' then some (c.toNat - '0'.toNat)
  else if 'a' ≤ c ∧ c ≤ 'f' then some (c.toNat - 'a'.toNat + 10)
  else if 'A' ≤ c ∧ c ≤ 'F' then some (c.toNat - 'A'.toNat + 10)
  else none

/-- Parse the body of a JSON string literal (after the opening quote),
    accumulating characters.  Escapes: the standard single-character escapes
    and `\uXXXX` for a valid non-surrogate scalar; unescaped control
    characters are rejected (CPython strict mode). -/
def parseStrBody : Nat → List Char → List Char → Option (String × List Char)
  | 0, _, _ => none
  | _ + 1, _, [] => none
  | f + 1, acc, c :: cs =>
    if c = '"' then some (⟨acc.reverse⟩, cs)
    else if c = '\\' then
      match cs with
      | [] => none
      | e :: cs' =>
        if e = '"' then parseStrBody f ('"' :: acc) cs'
        else if e = '\\' then parseStrBody f ('\\' :: acc) cs'
        else if e = '/' then parseStrBody f ('/' :: acc) cs'
        else if e = 'n' then parseStrBody f ('\n' :: acc) cs'
        else if e = 't' then parseStrBody f ('\t' :: acc) cs'
        else if e = 'r' then parseStrBody f ('\r' :: acc) cs'
        else if e = 'b' then parseStrBody f ('\x08' :: acc) cs'
        else if e = 'f' then parseStrBody f ('\x0c' :: acc) cs'
        else if e = 'u' then
          match cs' with
          | h1 :: h2 :: h3 :: h4 :: cs'' =>
            match hexVal h1, hexVal h2, hexVal h3, hexVal h4 with
            | some a, some b, some c', some d =>
              let n := ((a * 16 + b) * 16 + c') * 16 + d
              if h : n < 0xd800 then
                parseStrBody f (Char.ofNatAux n (by omega) :: acc) cs''
              else if h' : 0xe000 ≤ n ∧ n < 0x110000 then
                parseStrBody f (Char.ofNatAux n (by omega) :: acc) cs''
              else none
            | _, _, _, _ => none
          | _ => none
        else none
    else if c.toNat < 0x20 then none
    else parseStrBody f (c :: acc) cs

def digitVal (c : Char) : Option Nat :=
  if '0' ≤ c ∧ c ≤ '9' then some (c.toNat - '0'.toNat) else none

def takeDigits : List Char → (List Char × List Char)
  | [] => ([], [])
  | c :: cs =>
    if (digitVal c).isSome then
      let (ds, rest) := takeDigits cs
      (c :: ds, rest)
    else ([], c :: cs)

def digitsToNat (ds : List Char) : Nat :=
  ds.foldl (fun acc c => acc * 10 + ((digitVal c).getD 0)) 0

/-- Parse a JSON integer numeral: optional minus sign, digit run with no
    superfluous leading zero; a following fraction/exponent character makes
    the whole parse fail (float literals are not modelled). -/
def parseNumLit (cs : List Char) : Option (Json × List Char) :=
  let (neg, cs1) :=
    match cs with
    | '-' :: rest => (true, rest)
    | _ => (false, cs)
  match takeDigits cs1 with
  | ([], _) => none
  | (d :: ds, rest) =>
    if d = '0' ∧ ds ≠ [] then none
    else
      match rest with
      | r :: _ =>
        if r = '.' ∨ r = 'e' ∨ r = 'E' then none
        else
          let n : Int := Int.ofNat (digitsToNat (d :: ds))
          some (.num (if neg then -n else n), rest)
      | [] =>
        let n : Int := Int.ofNat (digitsToNat (d :: ds))
        some (.num (if neg then -n else n), rest)

/-- Insert into an object's entry list with CPython dict semantics: an
    existing key keeps its position and takes the new value, a new key is
    appended. -/
def dictInsert (kvs : List (String × Json)) (k : String) (v : Json) :
    List (String × Json) :=
  match kvs with
  | [] => [(k, v)]
  | (k', v') :: rest =>
    if k' = k then (k', v) :: rest else (k', v') :: dictInsert rest k v

mutual

/-- Parse one JSON value (fuelled recursive descent). -/
def parseVal : Nat → List Char → Option (Json × List Char)
  | 0, _ => none
  | f + 1, cs =>
    match skipWs cs with
    | [] => none
    | c :: rest =>
      if c = '{' then
        (parseObjBody f rest).map fun p => (.obj p.1, p.2)
      else if c = '[' then
        (parseArrBody f rest).map fun p => (.arr p.1, p.2)
      else if c = '"' then
        (parseStrBody (rest.length + 1) [] rest).map fun p => (.str p.1, p.2)
      else if leadsList ['t', 'r', 'u', 'e'] (c :: rest) then
        some (.bool true, rest.drop 3)
      else if leadsList ['f', 'a', 'l', 's', 'e'] (c :: rest) then
        some (.bool false, rest.drop 4)
      else if leadsList ['n', 'u', 'l', 'l'] (c :: rest) then
        some (.null, rest.drop 3)
      else parseNumLit (c :: rest)

/-- Parse an array body, positioned just after `[`. -/
def parseArrBody : Nat → List Char → Option (List Json × List Char)
  | 0, _ => none
  | f + 1, cs =>
    match skipWs cs with
    | ']' :: rest => some ([], rest)
    | other =>
      match parseVal f other with
      | none => none
      | some (v, rest) => (parseArrTail f rest).map fun p => (v :: p.1, p.2)

/-- Parse the remainder of an array after one element: `, elem ... ]`. -/
def parseArrTail : Nat → List Char → Option (List Json × List Char)
  | 0, _ => none
  | f + 1, cs =>
    match skipWs cs with
    | ']' :: rest => some ([], rest)
    | ',' :: rest =>
      match parseVal f rest with
      | none => none
      | some (v, rest') => (parseArrTail f rest').map fun p => (v :: p.1, p.2)
    | _ => none

/-- Parse an object body, positioned just after `{`. -/
def parseObjBody : Nat → List Char → Option (List (String × Json) × List Char)
  | 0, _ => none
  | f + 1, cs =>
    match skipWs cs with
    | '}' :: rest => some ([], rest)
    | other =>
      match parseMember f other with
      | none => none
      | some (k, v, rest) => parseObjTail f (dictInsert [] k v) rest

/-- Parse the remainder of an object after one member. -/
def parseObjTail (f : Nat) (accum : List (String × Json)) (cs : List Char) :
    Option (List (String × Json) × List Char) :=
  match f with
  | 0 => none
  | f + 1 =>
    match skipWs cs with
    | '}' :: rest => some (accum, rest)
    | ',' :: rest =>
      match parseMember f rest with
      | none => none
      | some (k, v, rest') => parseObjTail f (dictInsert accum k v) rest'
    | _ => none

/-- Parse one `"key" : value` member. -/
def parseMember : Nat → List Char → Option (String × Json × List Char)
  | 0, _ => none
  | f + 1, cs =>
    match skipWs cs with
    | '"' :: rest =>
      match parseStrBody (rest.length + 1) [] rest with
      | none => none
      | some (k, rest') =>
        match skipWs rest' with
        | ':' :: rest'' =>
          match parseVal f rest'' with
          | none => none
          | some (v, rest''') => some (k, v, rest''')
        | _ => none
    | _ => none

end

/-- Model of `json.loads`: one value, then only trailing whitespace. -/
def jsonLoads (s : String) : Option Json :=
  match parseVal (2 * s.data.length + 8) s.data with
  | some (v, rest) => if skipWs rest = [] then some v else none
  | none => none

/-! ## Dynamic (duck-typed) Python semantics -/

/-- The uncaught exceptions the pipeline can raise on malformed dynamic
    values. -/
inductive PyErr where
  | attributeError : PyErr
  | typeError : PyErr
deriving DecidableEq

/-- Python truthiness of a JSON-shaped value. -/
def pyTruthy : Json → Bool
  | .null => false
  | .bool b => b
  | .num n => n ≠ 0
  | .rat q => q ≠ 0
  | .str s => s ≠ ""
  | .arr xs => !xs.isEmpty
  | .obj kvs => !kvs.isEmpty

/-- Python `x.get(...)` requires `x` to be a dict; anything else raises
    AttributeError. -/
def asDict : Json → Except PyErr (List (String × Json))
  | .obj kvs => .ok kvs
  | _ => .error .attributeError

/-- Dict lookup on the entry list. -/
def dGet (kvs : List (String × Json)) (k : String) : Option Json :=
  (kvs.find? (fun p => p.1 = k)).map (·.2)

/-- Python `d.get(k, default)`. -/
def dGetD (kvs : List (String × Json)) (k : String) (dflt : Json) : Json :=
  (dGet kvs k).getD dflt

/-- Iterating a Python value: lists yield elements, strings yield their
    characters as one-character strings, dicts yield their keys; other
    values raise TypeError. -/
def pyIterList : Json → Except PyErr (List Json)
  | .arr xs => .ok xs
  | .str s => .ok (s.data.map fun ch => .str ⟨[ch]⟩)
  | .obj kvs => .ok (kvs.map fun p => .str p.1)
  | _ => .error .typeError

mutual

/-- Python `repr` of a JSON-shaped value.  String escaping and quote
    selection are simplified to plain single quotes, and `.rat` (a stand-in
    for Python floats) gets a placeholder rendering: Python's float
    formatting is outside the embedding.  No claim below inspects these two
    renderings. -/
def pyRepr : Json → String
  | .null => "None"
  | .bool true => "True"
  | .bool false => "False"
  | .num n => toString n
  | .rat q => toString q.num ++ "/" ++ toString q.den
  | .str s => "\x27" ++ s ++ "\x27"
  | .arr xs => "[" ++ pyReprElems xs ++ "]"
  | .obj kvs => "\x7b" ++ pyReprEntries kvs ++ "\x7d"

def pyReprElems : List Json → String
  | [] => ""
  | [x] => pyRepr x
  | x :: y :: rest => pyRepr x ++ ", " ++ pyReprElems (y :: rest)

def pyReprEntries : List (String × Json) → String
  | [] => ""
  | [(k, v)] => "\x27" ++ k ++ "\x27: " ++ pyRepr v
  | (k, v) :: e :: rest =>
    "\x27" ++ k ++ "\x27: " ++ pyRepr v ++ ", " ++ pyReprEntries (e :: rest)

end

/-- Python `str(x)`: identity on strings, `repr` on everything else. -/
def pyStr : Json → String
  | .str s => s
  | v => pyRepr v

/-- Python `int(s)` on a string: strip whitespace, optional sign, then a nonempty
    digit run (numeric-literal underscores and non-ASCII digits are not
    modelled). -/
def parseIntStr (s : String) : Option Int :=
  let cs := stripChars s.data
  let (neg, cs1) :=
    match cs with
    | '-' :: r => (true, r)
    | '+' :: r => (false, r)
    | _ => (false, cs)
  match takeDigits cs1 with
  | ([], _) => none
  | (ds, rest) =>
    if rest.isEmpty then
      let n : Int := Int.ofNat (digitsToNat ds)
      some (if neg then -n else n)
    else none

/-- Python `int(x)` under a blanket `except: continue`: integers pass through,
    booleans coerce to 0/1, floats truncate toward zero, numeric strings
    parse; everything else yields no value. -/
def pyToInt : Json → Option Int
  | .num n => some n
  | .bool b => some (if b then 1 else 0)
  | .rat q => some (Int.tdiv q.num (Int.ofNat q.den))
  | .str s => parseIntStr s
  | _ => none

/-! ## Dedup keys: hashable scalars up to Python `==` -/

/-- The canonical form of a hashable scalar: Python compares (and hashes)
    booleans, ints and floats by numeric value, so all three collapse to one
    rational. -/
inductive ScalKey where
  | sNull : ScalKey
  | sRat (q : Rat) : ScalKey
  | sStr (s : String) : ScalKey
deriving DecidableEq

/-- Canonicalize a dict-key component.  Lists and dicts are unhashable: the
    `key in seen` membership test of `dedupe_claims` raises TypeError. -/
def canonScalar : Json → Except PyErr ScalKey
  | .null => .ok .sNull
  | .bool b => .ok (.sRat (if b then 1 else 0))
  | .num n => .ok (.sRat (n : Rat))
  | .rat q => .ok (.sRat q)
  | .str s => .ok (.sStr s)
  | .arr _ => .error .typeError
  | .obj _ => .error .typeError

/-- The dedup key `(company, normalize_ws(claim_text), topic, metric)` in
    canonical form; plain equality of `CKey` is Python's tuple equality. -/
structure CKey where
  company : ScalKey
  ctext : String
  topic : ScalKey
  metric : ScalKey
deriving DecidableEq

/-- Model of `normalize_ws` applied to a dynamic value: `s or ""` maps a falsy value
    to the empty string; a truthy non-string raises TypeError inside
    `re.sub`. -/
def normWsJson (v : Json) : Except PyErr String :=
  if pyTruthy v then
    match v with
    | .str s => .ok (normalize_ws s)
    | _ => .error .typeError
  else .ok ""

/-- Compute one claim's dedup key, with the dynamic failures of the source:
    AttributeError if the claim is not a dict, TypeError from `normalize_ws`
    on a truthy non-string `claim_text`, TypeError from hashing a key with an
    unhashable component. -/
def keyOf (c : Json) : Except PyErr CKey := do
  let d ← asDict c
  let comp := dGetD d "company" (.str "")
  let ct ← normWsJson (dGetD d "claim_text" (.str ""))
  let top := dGetD d "topic" (.str "")
  let met := dGetD d "metric" (.str "")
  let compK ← canonScalar comp
  let topK ← canonScalar top
  let metK ← canonScalar met
  .ok ⟨compK, ct, topK, metK⟩

/-! ## Deduplication -/

/-- Code-point lexicographic order on character lists (Python's string
    `<`). -/
def strLtB : List Char → List Char → Bool
  | [], [] => false
  | [], _ :: _ => true
  | _ :: _, [] => false
  | a :: as, b :: bs =>
    if a.toNat < b.toNat then true
    else if b.toNat < a.toNat then false
    else strLtB as bs

def strLt (s t : String) : Bool :=
  strLtB s.data t.data

/-- Insert into a sorted duplicate-free list of strings; folding this over a
    list models `sorted(set(...))` (Python string order is code-point
    lexicographic). -/
def insertSorted (s : String) : List String → List String
  | [] => [s]
  | t :: ts =>
    if strLt s t then s :: t :: ts
    else if s = t then t :: ts
    else t :: insertSorted s ts

/-- Python `sorted(set(xs))` for strings. -/
def sortedSet (xs : List String) : List String :=
  xs.foldr insertSorted []

/-- Python `+` on the values that can appear in claim fields: list and
    string concatenation, numeric addition (booleans count as 0/1); any
    other combination raises TypeError. -/
def pyAdd : Json → Json → Except PyErr Json
  | .arr a, .arr b => .ok (.arr (a ++ b))
  | .str a, .str b => .ok (.str (a ++ b))
  | .num a, .num b => .ok (.num (a + b))
  | .num a, .bool b => .ok (.num (a + if b then 1 else 0))
  | .bool a, .num b => .ok (.num ((if a then 1 else 0) + b))
  | .bool a, .bool b => .ok (.num ((if a then 1 else 0) + (if b then 1 else 0)))
  | .rat a, .rat b => .ok (.rat (a + b))
  | .rat a, .num b => .ok (.rat (a + b))
  | .num a, .rat b => .ok (.rat (a + b))
  | .rat a, .bool b => .ok (.rat (a + if b then 1 else 0))
  | .bool a, .rat b => .ok (.rat ((if a then 1 else 0) + b))
  | _, _ => .error .typeError

/-- Merge a duplicate claim `c` into the stored claim `existing`, in source
    order: stringify and union the citation lists, store them sorted, then
    append the chunk lists (`or []` maps a falsy new chunk value to `[]`). -/
def mergeClaims (existing c : Json) : Except PyErr Json := do
  let ed ← asDict existing
  let cd ← asDict c
  let citesOld ← pyIterList (dGetD ed "source_citations" (.arr []))
  let citesNew ← pyIterList (dGetD cd "source_citations" (.arr []))
  let merged := sortedSet (citesOld.map pyStr ++ citesNew.map pyStr)
  let ed1 := dictInsert ed "source_citations" (.arr (merged.map .str))
  let chunksOld := dGetD ed1 "source_chunks" (.arr [])
  let chunksNewRaw := dGetD cd "source_chunks" (.arr [])
  let chunksNew := if pyTruthy chunksNewRaw then chunksNewRaw else .arr []
  let sum ← pyAdd chunksOld chunksNew
  .ok (.obj (dictInsert ed1 "source_chunks" sum))

/-- One entry of the `seen` dictionary; the stored claim is aliased with the
    `result` list, so the assoc list in first-insertion order is both. -/
abbrev DEntry := CKey × Json

def lookupEntry (acc : List DEntry) (k : CKey) : Option Json :=
  (acc.find? (fun e => e.1 = k)).map (·.2)

def updateEntry (acc : List DEntry) (k : CKey) (v : Json) : List DEntry :=
  acc.map fun e => if e.1 = k then (e.1, v) else e

/-- The body of the `for c in claims` loop of `dedupe_claims`. -/
def dedupeStep (acc : List DEntry) (c : Json) : Except PyErr (List DEntry) := do
  let k ← keyOf c
  match lookupEntry acc k with
  | some e => do
    let e' ← mergeClaims e c
    .ok (updateEntry acc k e')
  | none => .ok (acc ++ [(k, c)])

def dedupeFold : List DEntry → List Json → Except PyErr (List DEntry)
  | acc, [] => .ok acc
  | acc, c :: cs => do
    let acc' ← dedupeStep acc c
    dedupeFold acc' cs

/-- Model of `dedupe_claims` on a claim list.  `deepcopy` of an immutable value is the
    value itself in this embedding. -/
def dedupe_claims (claims : List Json) : Except PyErr (List Json) := do
  let fin ← dedupeFold [] claims
  .ok (fin.map (·.2))

/-- The pipeline hands `dedupe_claims` whatever `safe_parse_json` produced;
    `for c in claims` then iterates that container. -/
def dedupe_claims_dyn (claims : Json) : Except PyErr (List Json) := do
  let cs ← pyIterList claims
  dedupe_claims cs

/-! ## Retrieval results, ranking, company matching -/

/-- One entry of the `retrieve_all` result list: `meta_id`, FAISS score
    (modelled as a rational), and the metadata row joined in.  `company` is a
    string (built from the PDF file name by the ingestion pipeline); `year`
    and `page` pass through untyped. -/
structure Passage where
  meta_id : Int
  score : Rat
  company : String
  year : Json
  page : Json
  chunk : String

/-- The `defaultdict(float)` accumulation: add to an existing company's entry in
    place, or append a fresh entry (dict insertion order = first-seen
    order). -/
def addScore (acc : List (String × Rat)) (c : String) (s : Rat) :
    List (String × Rat) :=
  match acc with
  | [] => [(c, s)]
  | (c', s') :: rest =>
    if c' = c then (c', s' + s) :: rest else (c', s') :: addScore rest c s

/-- The aggregation loop of `rank_companies`: passages with a falsy (empty)
    company are skipped. -/
def aggScores (results : List Passage) : List (String × Rat) :=
  results.foldl
    (fun acc r => if r.company ≠ "" then addScore acc r.company r.score else acc)
    []

/-- Stable insertion for a descending sort: the incoming element (originally
    earlier) goes before every element of equal measure, matching Python's
    stable `sorted(..., reverse=True)`. -/
def insDesc {α : Type} (f : α → Rat) (x : α) : List α → List α
  | [] => [x]
  | y :: ys => if f y ≤ f x then x :: y :: ys else y :: insDesc f x ys

/-- Stable descending sort by a rational measure. -/
def sortDesc {α : Type} (f : α → Rat) : List α → List α
  | [] => []
  | x :: xs => insDesc f x (sortDesc f xs)

/-- Model of `rank_companies`: aggregate by company, sort descending by aggregate
    score (stable), keep the first `topn`. -/
def rank_companies (results : List Passage) (topn : Nat) : List (String × Rat) :=
  (sortDesc (fun p => p.2) (aggScores results)).take topn

/-- Model of `pick_company_passages`: exact company filter, stable descending sort by
    score, truncate to `limit`. -/
def pick_company_passages (results : List Passage) (company : String)
    (limit : Nat) : List Passage :=
  (sortDesc (fun p => p.score) (results.filter fun r => r.company = company)).take limit

/-- The `norm` helper of `match_company_name`: drop all whitespace, then
    lower-case (ASCII case mapping; CJK characters are fixed points in both
    Python and Lean). -/
def normName (s : String) : String :=
  ⟨(s.data.filter fun c => !isSpaceCh c).map Char.toLower⟩

/-- Model of `match_company_name`: bidirectional substring containment of normalized
    names; an empty normalized name never matches. -/
def match_company_name (name preferred : String) : Bool :=
  let n1 := normName name
  let n2 := normName preferred
  if n1 = "" || n2 = "" then false
  else strContainsSub n2 n1 || strContainsSub n1 n2

/-- Python truthiness of the optional preferred-company argument. -/
def pyTruthyOptStr : Option String → Bool
  | some s => s ≠ ""
  | none => false

/-- Model of `choose_company`: with a (truthy) preference, the first ranked name that
    fuzzily matches it, and no fallback on a miss; without a preference the
    top-ranked company. -/
def choose_company (company_ranked : List (String × Rat))
    (preferred_company : Option String) : Option String :=
  match company_ranked with
  | [] => none
  | top :: _ =>
    if pyTruthyOptStr preferred_company then
      match company_ranked.find?
          (fun nr => match_company_name nr.1 (preferred_company.getD "")) with
      | some nr => some nr.1
      | none => none
    else
      some top.1

/-! ## Context building and the two-attempt extraction -/

/-- Insert with dict-overwrite semantics into the citation map. -/
def citeInsert (cm : List (Int × Passage)) (mid : Int) (p : Passage) :
    List (Int × Passage) :=
  match cm with
  | [] => [(mid, p)]
  | (m', p') :: rest =>
    if m' = mid then (m', p) :: rest else (m', p') :: citeInsert rest mid p

def lookupCite (cm : List (Int × Passage)) (mid : Int) : Option Passage :=
  (cm.find? (fun e => e.1 = mid)).map (·.2)

/-- One line of the numbered evidence context (f-string of `build_context`;
    `year`/`page` are rendered with `str`). -/
def contextLine (p : Passage) : String :=
  "[" ++ toString p.meta_id ++ "] 公司:" ++ p.company ++ " | 年度:" ++
    pyStr p.year ++ " | 頁碼:" ++ pyStr p.page ++ " | 內容:" ++ p.chunk

/-- Model of `build_context`: the context string and the `meta_id → passage` map. -/
def build_context (passages : List Passage) :
    String × List (Int × Passage) :=
  (String.intercalate "\n" (passages.map contextLine),
   passages.foldl (fun cm p => citeInsert cm p.meta_id p) [])

/-- Model of `safe_parse_json`, the two-stage tri-state validation: strict
    `json.loads` of the stripped text (a parsed JSON `null` is Python `None`,
    indistinguishable from the failure result); on exception, `json.loads` of
    the greedy first-`[`-to-last-`]` span; else no value. -/
def firstBracketSpanFrom : List Char → Option (List Char)
  | [] => none
  | c :: cs => if c = '[' then some (c :: cs) else firstBracketSpanFrom cs

/-- Cut a character list at its last `]` (inclusive). -/
def upToLastClose (cs : List Char) : Option (List Char) :=
  let r := cs.reverse.dropWhile (fun c => c ≠ ']')
  if r.isEmpty then none else some r.reverse

/-- The greedy regex `\[[\s\S]*\]`: from the first `[` to the last `]`
    after it. -/
def firstBracketSpan (s : String) : Option String := do
  let suff ← firstBracketSpanFrom s.data
  let span ← upToLastClose suff
  pure ⟨span⟩

def safe_parse_json (text : String) : Option Json :=
  let t := pyStrip text
  match jsonLoads t with
  | some v =>
    match v with
    | .null => none
    | v' => some v'
  | none =>
    match firstBracketSpan t with
    | some sp => jsonLoads sp
    | none => none

/-- Model of `ask_llm_extract_claims`.  The generative model is an oracle from the
    attempt index to its response text (the prompt strings do not influence
    the modelled control flow).  The third component counts the model
    invocations performed. -/
def ask_llm_extract_claims (oracle : Nat → String) (passages : List Passage) :
    String × List (Int × Passage) × Nat :=
  let ctx := build_context passages
  let raw := pyStrip (oracle 0)
  if (safe_parse_json raw).isSome then (raw, ctx.2, 1)
  else (pyStrip (oracle 1), ctx.2, 2)

/-! ## Citation enrichment -/

/-- The ExcerptRecord dict appended for a resolved citation. -/
def excerptRecord (mid : Int) (p : Passage) (maxlen : Nat) : Json :=
  .obj [("meta_id", .num mid), ("company", .str p.company),
        ("year", p.year), ("page", p.page), ("score", .rat p.score),
        ("chunk", .str (truncate p.chunk maxlen))]

/-- Per-claim body of `enrich_claims_with_source_chunks`: each citation entry
    that coerces to an int (`int(n)`, blanket except) and is present in the
    map contributes one excerpt; all other entries are dropped.  The map's
    passages are nonempty dicts, so the `if not p` guard never fires. -/
def enrichClaim (cm : List (Int × Passage)) (maxlen : Nat) (c : Json) :
    Except PyErr Json := do
  let cd ← asDict c
  let cites ← pyIterList (dGetD cd "source_citations" (.arr []))
  let chunks := cites.filterMap fun n =>
    (pyToInt n).bind fun mid =>
      (lookupCite cm mid).map fun p => excerptRecord mid p maxlen
  .ok (.obj (dictInsert cd "source_chunks" (.arr chunks)))

/-- Model of `enrich_claims_with_source_chunks` on the container `safe_parse_json`
    produced.  A non-list container either iterates nothing (and is returned
    unchanged) or yields a string element, whose missing `.get` raises
    AttributeError; a non-iterable raises TypeError. -/
def enrich_claims_with_source_chunks (claims : Json)
    (cm : List (Int × Passage)) (maxlen : Nat) : Except PyErr Json :=
  match claims with
  | .arr cs => do
    let cs' ← cs.mapM (enrichClaim cm maxlen)
    .ok (.arr cs')
  | other => do
    let elems ← pyIterList other
    match elems with
    | [] => .ok other
    | e :: _ => do
      let _ ← asDict e
      -- unreachable: the elements of a non-list iterable here are strings
      .ok other

/-! ## The Agent A pipeline -/

def COMPANY_TOPN : Nat := 5
def PASSAGES_FOR_SELECTED : Nat := 30
def CITE_CHUNK_MAXLEN : Nat := 160

/-- The four structured result shapes of `agent_a_extract_claims`. -/
structure PipeResult where
  ok : Bool
  selected_company : Option String
  claims : List Json
  raw : Option String

/-- Steps 5–7 of the pipeline: extraction with repair, final parse, then
    enrichment and deduplication. -/
def runExtraction (oracle : Nat → String) (sel : String)
    (passages : List Passage) : Except PyErr PipeResult :=
  let r := ask_llm_extract_claims oracle passages
  match safe_parse_json r.1 with
  | none => .ok ⟨false, some sel, [], some r.1⟩
  | some parsed => do
    let enriched ← enrich_claims_with_source_chunks parsed r.2.1 CITE_CHUNK_MAXLEN
    let deduped ← dedupe_claims_dyn enriched
    .ok ⟨true, some sel, deduped, none⟩

/-- Model of `agent_a_extract_claims`.  The FAISS retrieval for the query is an
    external read-only index; the `results` list stands for the value
    `retrieve_all` returned for the query, and `oracle` is the generative
    model. -/
def agent_a_extract_claims (results : List Passage) (oracle : Nat → String)
    (preferred_company : Option String) : Except PyErr PipeResult :=
  if results.isEmpty then .ok ⟨true, preferred_company, [], none⟩
  else if pyTruthyOptStr preferred_company then
    let pc := preferred_company.getD ""
    let filtered := results.filter fun r => match_company_name r.company pc
    if filtered.isEmpty then .ok ⟨true, preferred_company, [], none⟩
    else
      let ranked := rank_companies filtered COMPANY_TOPN
      match choose_company ranked preferred_company with
      | none => .ok ⟨true, preferred_company, [], none⟩
      | some sel =>
        if sel = "" then .ok ⟨true, preferred_company, [], none⟩
        else runExtraction oracle sel
          (pick_company_passages filtered sel PASSAGES_FOR_SELECTED)
  else
    let ranked := rank_companies results COMPANY_TOPN
    if ranked.isEmpty then .ok ⟨true, none, [], none⟩
    else
      match choose_company ranked none with
      | none => .ok ⟨true, none, [], none⟩
      | some sel =>
        if sel = "" then .ok ⟨true, none, [], none⟩
        else runExtraction oracle sel
          (pick_company_passages results sel PASSAGES_FOR_SELECTED)

/-! # Theorems -/

/-! ## C1: the pipeline can abort with an uncaught exception -/

/-- A single retrieved passage (score 1, company 甲公司). -/
def pC1 : Passage := ⟨1, 1, "甲公司", .null, .null, "減碳承諾內容"⟩

/-- A model oracle whose first response is the JSON object `{"a": 1}` — a
    value `safe_parse_json` accepts although it is not an array. -/
def oracleC1 : Nat → String := fun n => if n = 0 then "\x7b\"a\": 1\x7d" else "[]"

/-- C1 (evidence of the code bug): on a nonempty retrieval with no preferred
    company, a first model response that parses as a JSON *object* passes the
    tri-state validation, and `enrich_claims_with_source_chunks` then calls
    `.get` on the object's iterated string key: `agent_a_extract_claims`
    raises an uncaught AttributeError instead of returning one of the four
    structured result shapes. -/
theorem C1_object_response_uncaught_error :
    agent_a_extract_claims [pC1] oracleC1 none = .error .attributeError := rfl

/-! ## C5: the fuzzy company-name match -/

/-- The needle string occurs as a contiguous substring of `hay` (the meaning of
    Python's `needle in hay`). -/
def IsSubstr (needle hay : String) : Prop :=
  ∃ l r : List Char, hay.data = l ++ needle.data ++ r

theorem leadsList_iff (n h : List Char) :
    leadsList n h = true ↔ ∃ r, h = n ++ r := by
  induction n generalizing h with
  | nil => simp [leadsList]
  | cons a as ih =>
    cases h with
    | nil => simp [leadsList]
    | cons b bs =>
      simp only [leadsList, Bool.and_eq_true, decide_eq_true_eq, ih,
        List.cons_append, List.cons.injEq]
      constructor
      · rintro ⟨rfl, r, rfl⟩
        exact ⟨r, rfl, rfl⟩
      · rintro ⟨r, rfl, rfl⟩
        exact ⟨rfl, r, rfl⟩

theorem subList_iff (n h : List Char) :
    subList n h = true ↔ ∃ l r, h = l ++ n ++ r := by
  induction h with
  | nil =>
    simp only [subList, leadsList_iff]
    constructor
    · rintro ⟨r, hr⟩
      exact ⟨[], r, by simpa using hr⟩
    · rintro ⟨l, r, hr⟩
      rcases List.append_eq_nil.mp (List.append_eq_nil.mp hr.symm).1 with ⟨rfl, rfl⟩
      exact ⟨r, by simpa using hr⟩
  | cons c cs ih =>
    simp only [subList, Bool.or_eq_true, leadsList_iff, ih]
    constructor
    · rintro (⟨r, hr⟩ | ⟨l, r, hr⟩)
      · exact ⟨[], r, by simpa using hr⟩
      · exact ⟨c :: l, r, by simp [hr]⟩
    · rintro ⟨l, r, hr⟩
      cases l with
      | nil => exact .inl ⟨r, by simpa using hr⟩
      | cons x xs =>
        simp only [List.cons_append, List.cons.injEq] at hr
        exact .inr ⟨xs, r, hr.2⟩

theorem strContainsSub_iff (n h : String) :
    strContainsSub n h = true ↔ IsSubstr n h := by
  simpa [strContainsSub, IsSubstr] using subList_iff n.data h.data

/-- C5: `match_company_name` strips all whitespace and lower-cases both
    names (that is `normName`), matches exactly when one normalized name is a
    contiguous substring of the other, and rejects empty normalized names;
    the three concrete cases of the spec hold. -/
theorem C5_match_company_name_spec :
    (∀ name preferred : String,
        match_company_name name preferred = true ↔
          (normName name ≠ "" ∧ normName preferred ≠ "" ∧
            (IsSubstr (normName preferred) (normName name) ∨
             IsSubstr (normName name) (normName preferred))))
    ∧ match_company_name "台塑2024" "台塑" = true
    ∧ match_company_name "台積電" "鴻海" = false
    ∧ match_company_name "" "台塑" = false := by
  refine ⟨?_, rfl, rfl, rfl⟩
  intro name preferred
  simp only [match_company_name]
  by_cases h1 : normName name = "" <;>
    by_cases h2 : normName preferred = "" <;>
      simp [h1, h2, strContainsSub_iff]

/-- Concrete instantiation of C5: the matching pair normalizes to nonempty
    names, one contained in the other. -/
theorem C5_match_company_name_spec_witness :
    normName "台塑2024" ≠ "" ∧ normName "台塑" ≠ "" ∧
      (IsSubstr (normName "台塑") (normName "台塑2024") ∨
       IsSubstr (normName "台塑2024") (normName "台塑")) :=
  (C5_match_company_name_spec.1 "台塑2024" "台塑").mp
    C5_match_company_name_spec.2.1

/-! ## C7: at most two model invocations, repair exactly once -/

/-- C7: the extraction step consults the oracle at most twice; a first
    response that passes the tri-state parse is returned at once after a
    single invocation, and otherwise exactly one repair invocation happens
    and its (stripped) text is returned whether or not it parses. -/
theorem C7_two_attempt_protocol (oracle : Nat → String) (passages : List Passage) :
    (ask_llm_extract_claims oracle passages).2.2 ≤ 2
    ∧ ((safe_parse_json (pyStrip (oracle 0))).isSome = true →
        ask_llm_extract_claims oracle passages =
          (pyStrip (oracle 0), (build_context passages).2, 1))
    ∧ ((safe_parse_json (pyStrip (oracle 0))).isSome = false →
        ask_llm_extract_claims oracle passages =
          (pyStrip (oracle 1), (build_context passages).2, 2)) := by
  unfold ask_llm_extract_claims
  by_cases h : (safe_parse_json (pyStrip (oracle 0))).isSome <;>
    simp [h]

/-- Concrete instantiation of C7: an oracle whose first response is the valid
    array `[]` is consulted exactly once and its text is returned. -/
theorem C7_two_attempt_protocol_witness :
    ask_llm_extract_claims (fun _ => "[]") [pC1] =
      ("[]", (build_context [pC1]).2, 1) :=
  (C7_two_attempt_protocol (fun _ => "[]") [pC1]).2.1 rfl

/-! ## C2: the tri-state parse -/

theorem firstBracketSpanFrom_head (cs l : List Char)
    (h : firstBracketSpanFrom cs = some l) : ∃ t, l = '[' :: t := by
  induction cs with
  | nil => simp [firstBracketSpanFrom] at h
  | cons c cs ih =>
    rw [firstBracketSpanFrom] at h
    split_ifs at h with hc
    · refine ⟨cs, ?_⟩
      injection h with h'
      rw [← h', hc]
    · exact ih h

theorem upToLastClose_head (t m : List Char)
    (h : upToLastClose ('[' :: t) = some m) : ∃ t', m = '[' :: t' := by
  simp only [upToLastClose] at h
  split_ifs at h with he
  obtain ⟨u, hu⟩ := List.dropWhile_suffix (l := ('[' :: t).reverse)
    (p := fun c => c ≠ ']')
  injection h with h'
  have hl : m ++ u.reverse = '[' :: t := by
    rw [← h']
    have := congrArg List.reverse hu
    simpa [List.reverse_append] using this
  cases m with
  | nil =>
    have hz : ('[' :: t).reverse.dropWhile (fun c => c ≠ ']') = [] := by
      have := congrArg List.reverse h'
      simpa using this
    refine absurd ?_ he
    rw [hz]
    rfl
  | cons x m' =>
    simp only [List.cons_append, List.cons.injEq] at hl
    exact ⟨m', by rw [hl.1]⟩

theorem firstBracketSpan_head (s sp : String)
    (h : firstBracketSpan s = some sp) : ∃ t, sp.data = '[' :: t := by
  simp only [firstBracketSpan, Option.bind_eq_bind, Option.bind_eq_some] at h
  obtain ⟨suff, hsuff, span, hspan, h3⟩ := h
  obtain ⟨t0, rfl⟩ := firstBracketSpanFrom_head _ _ hsuff
  obtain ⟨t', rfl⟩ := upToLastClose_head _ _ hspan
  have hsp : (⟨'[' :: t'⟩ : String) = sp := by simpa using h3
  exact ⟨t', by rw [← hsp]⟩

theorem parseVal_bracket_arr (f : Nat) (t : List Char) (v : Json)
    (rest : List Char) (h : parseVal f ('[' :: t) = some (v, rest)) :
    ∃ xs, v = .arr xs := by
  cases f with
  | zero =>
    rw [show parseVal 0 ('[' :: t) = none from rfl] at h
    exact Option.noConfusion h
  | succ f =>
    rw [show parseVal (f + 1) ('[' :: t) =
        (parseArrBody f t).map (fun p => (.arr p.1, p.2)) from rfl] at h
    cases hpb : parseArrBody f t with
    | none => rw [hpb] at h; simp at h
    | some p =>
      rw [hpb] at h
      simp only [Option.map_some', Option.some.injEq, Prod.mk.injEq] at h
      exact ⟨p.1, h.1.symm⟩

theorem jsonLoads_bracket_arr (s : String) (t : List Char) (v : Json)
    (hd : s.data = '[' :: t) (h : jsonLoads s = some v) : ∃ xs, v = .arr xs := by
  rw [jsonLoads, hd] at h
  cases hp : parseVal (2 * ('[' :: t).length + 8) ('[' :: t) with
  | none => rw [hp] at h; exact absurd h (by simp)
  | some p =>
    obtain ⟨pv, pr⟩ := p
    rw [hp] at h
    obtain ⟨xs, hxs⟩ := parseVal_bracket_arr _ _ pv pr hp
    by_cases hw : skipWs pr = []
    · simp only [hw, reduceIte, Option.some.injEq] at h
      exact ⟨xs, by rw [← h, hxs]⟩
    · simp only [hw, reduceIte] at h
      exact Option.noConfusion h

/-- C2 (amended): `safe_parse_json` yields a value iff either the stripped
    text strictly parses as a JSON value other than `null`, or the strict
    parse fails and the greedy first-`[`-to-last-`]` span parses; a value
    obtained from the span stage is always a JSON array, but the strict stage
    returns any non-null JSON value — also non-arrays. -/
theorem C2_safe_parse_json_spec (t : String) :
    ((safe_parse_json t).isSome = true ↔
      ((jsonLoads (pyStrip t)).isSome = true ∧ jsonLoads (pyStrip t) ≠ some .null)
      ∨ (jsonLoads (pyStrip t) = none ∧
          ∃ sp, firstBracketSpan (pyStrip t) = some sp ∧ (jsonLoads sp).isSome = true))
    ∧ (∀ v, jsonLoads (pyStrip t) = none → safe_parse_json t = some v →
        ∃ xs, v = .arr xs) := by
  constructor
  · rw [safe_parse_json]
    cases hL : jsonLoads (pyStrip t) with
    | some v =>
      cases v <;> simp [hL]
    | none =>
      cases hS : firstBracketSpan (pyStrip t) with
      | some sp => simp [hL, hS]
      | none => simp [hL, hS]
  · intro v hL hS
    rw [safe_parse_json, hL] at hS
    cases hSp : firstBracketSpan (pyStrip t) with
    | some sp =>
      rw [hSp] at hS
      obtain ⟨t', ht'⟩ := firstBracketSpan_head _ _ hSp
      exact jsonLoads_bracket_arr sp t' v ht' hS
    | none => rw [hSp] at hS; exact absurd hS (by simp)

/-- Concrete instantiation of C2 (amended): the text `note [1]` fails the
    strict parse, and the value recovered from its bracketed span is an
    array. -/
theorem C2_safe_parse_json_spec_witness :
    jsonLoads (pyStrip "note [1]") = none ∧ ∃ xs, Json.arr [Json.num 1] = Json.arr xs :=
  ⟨rfl, (C2_safe_parse_json_spec "note [1]").2 (Json.arr [Json.num 1]) rfl rfl⟩

/-- Counterexample to C2 as stated: the text `{}` contains no `[` at all —
    hence no JSON array — yet `safe_parse_json` returns a parsed value,
    namely the (non-array) empty JSON object. -/
theorem C2_counterexample :
    safe_parse_json "\x7b\x7d" = some (.obj [])
    ∧ ("\x7b\x7d".data.contains '[') = false
    ∧ ∀ xs, Json.obj [] ≠ Json.arr xs :=
  ⟨rfl, rfl, fun _ h => Json.noConfusion h⟩

/-! ## C8: citation enrichment drops unresolvable citations silently -/

/-- Spec-level description of the excerpt list the enricher produces: a
    citation entry coercible to an integer that is present in the citation
    map contributes one ExcerptRecord; every other entry contributes
    nothing. -/
def chunksOf (cm : List (Int × Passage)) (maxlen : Nat) : List Json → List Json
  | [] => []
  | n :: ns =>
    match pyToInt n with
    | none => chunksOf cm maxlen ns
    | some mid =>
      match lookupCite cm mid with
      | none => chunksOf cm maxlen ns
      | some p => excerptRecord mid p maxlen :: chunksOf cm maxlen ns

theorem filterMap_eq_chunksOf (cm : List (Int × Passage)) (maxlen : Nat)
    (entries : List Json) :
    (entries.filterMap fun n =>
      (pyToInt n).bind fun mid =>
        (lookupCite cm mid).map fun p => excerptRecord mid p maxlen) =
    chunksOf cm maxlen entries := by
  induction entries with
  | nil => rfl
  | cons n ns ih =>
    cases hn : pyToInt n with
    | none => simp [List.filterMap_cons, chunksOf, hn, ih]
    | some mid =>
      cases hm : lookupCite cm mid with
      | none => simp [List.filterMap_cons, chunksOf, hn, hm, ih]
      | some p => simp [List.filterMap_cons, chunksOf, hn, hm, ih]

theorem dGet_cons (k0 : String) (v0 : Json) (rest : List (String × Json))
    (k : String) :
    dGet ((k0, v0) :: rest) k = if k0 = k then some v0 else dGet rest k := by
  by_cases h : k0 = k <;> simp [dGet, List.find?, h]

theorem dictInsert_cons (k0 : String) (v0 : Json) (rest : List (String × Json))
    (k : String) (v : Json) :
    dictInsert ((k0, v0) :: rest) k v =
      if k0 = k then (k0, v) :: rest else (k0, v0) :: dictInsert rest k v := rfl

theorem dGet_dictInsert_self (kvs : List (String × Json)) (k : String) (v : Json) :
    dGet (dictInsert kvs k v) k = some v := by
  induction kvs with
  | nil => simp [dictInsert, dGet_cons]
  | cons e rest ih =>
    obtain ⟨k0, v0⟩ := e
    rw [dictInsert_cons]
    by_cases he : k0 = k
    · simp [he, dGet_cons]
    · simp [he, dGet_cons, ih]

theorem dGet_dictInsert_other (kvs : List (String × Json)) (k : String) (v : Json)
    (k' : String) (h : k' ≠ k) :
    dGet (dictInsert kvs k v) k' = dGet kvs k' := by
  induction kvs with
  | nil =>
    rw [show dictInsert [] k v = [(k, v)] from rfl, dGet_cons,
      if_neg (fun hh : k = k' => h hh.symm)]
  | cons e rest ih =>
    obtain ⟨k0, v0⟩ := e
    rw [dictInsert_cons]
    by_cases he : k0 = k
    · rw [if_pos he, dGet_cons, dGet_cons,
        if_neg (fun hh : k0 = k' => h (he ▸ hh).symm),
        if_neg (fun hh : k0 = k' => h (he ▸ hh).symm)]
    · rw [if_neg he, dGet_cons, dGet_cons]
      by_cases hk : k0 = k'
      · rw [if_pos hk, if_pos hk]
      · rw [if_neg hk, if_neg hk, ih]

/-- C8: on any claim list (dicts whose `source_citations` value iterates) and
    any citation index, enrichment always succeeds — entries that do not
    coerce to an integer or are absent from the index are dropped silently,
    with no error and no placeholder — and each produced ExcerptRecord's text
    is `truncate`d: left intact when the normalized passage text fits in
    `maxlen`, and otherwise cut to `maxlen` code points with a terminating
    ellipsis. -/
theorem C8_enrich_spec (cm : List (Int × Passage)) (maxlen : Nat) (cs : List Json)
    (h : ∀ c ∈ cs, ∃ kvs entries, c = .obj kvs ∧
        pyIterList (dGetD kvs "source_citations" (.arr [])) = .ok entries) :
    (∃ cs', enrich_claims_with_source_chunks (.arr cs) cm maxlen = .ok (.arr cs')
      ∧ List.Forall₂ (fun c c' =>
          ∀ kvs entries, c = .obj kvs →
            pyIterList (dGetD kvs "source_citations" (.arr [])) = .ok entries →
            ∃ kvs', c' = .obj kvs'
              ∧ dGet kvs' "source_chunks" = some (.arr (chunksOf cm maxlen entries))
              ∧ ∀ k, k ≠ "source_chunks" → dGet kvs' k = dGet kvs k) cs cs')
    ∧ (∀ s : String, maxlen ≠ 0 →
        ((normalize_ws s).length ≤ maxlen → truncate s maxlen = normalize_ws s)
        ∧ (maxlen < (normalize_ws s).length →
            truncate s maxlen = ⟨(normalize_ws s).data.take maxlen⟩ ++ "...")) := by
  constructor
  · induction cs with
    | nil =>
      exact ⟨[], rfl, List.Forall₂.nil⟩
    | cons c cs ih =>
      obtain ⟨kvs, entries, rfl, hent⟩ := h c (List.mem_cons_self c cs)
      obtain ⟨cs', hcs', hfa⟩ := ih (fun c hc => h c (List.mem_cons_of_mem _ hc))
      have hone : enrichClaim cm maxlen (.obj kvs) =
          .ok (.obj (dictInsert kvs "source_chunks"
            (.arr (chunksOf cm maxlen entries)))) := by
        have hdef : enrichClaim cm maxlen (.obj kvs) =
            (pyIterList (dGetD kvs "source_citations" (.arr []))).bind
              (fun cites => .ok (.obj (dictInsert kvs "source_chunks"
                (.arr (cites.filterMap fun n =>
                  (pyToInt n).bind fun mid =>
                    (lookupCite cm mid).map fun p =>
                      excerptRecord mid p maxlen))))) := rfl
        rw [hdef, hent]
        exact congrArg
          (fun l => Except.ok (Json.obj (dictInsert kvs "source_chunks" (Json.arr l))))
          (filterMap_eq_chunksOf cm maxlen entries)
      have harr : ∀ l : List Json,
          enrich_claims_with_source_chunks (.arr l) cm maxlen =
            (l.mapM (enrichClaim cm maxlen)).bind (fun l' => .ok (.arr l')) :=
        fun _ => rfl
      refine ⟨.obj (dictInsert kvs "source_chunks"
          (.arr (chunksOf cm maxlen entries))) :: cs', ?_, ?_⟩
      · rw [harr] at hcs' ⊢
        rw [List.mapM_cons, hone]
        cases hmm : (cs.mapM (enrichClaim cm maxlen) : Except PyErr (List Json)) with
        | error e =>
          rw [hmm] at hcs'
          exact absurd hcs' (fun hc => Except.noConfusion hc)
        | ok l =>
          rw [hmm] at hcs'
          have hok : Except.ok (ε := PyErr) (Json.arr l) = .ok (.arr cs') := hcs'
          obtain rfl : l = cs' := Json.arr.inj (Except.ok.inj hok)
          rfl
      · refine List.Forall₂.cons ?_ hfa
        intro kvs0 entries0 hk he0
        obtain rfl : kvs0 = kvs := (Json.obj.inj hk).symm
        rw [hent] at he0
        obtain rfl : entries0 = entries := (Except.ok.inj he0).symm
        exact ⟨_, rfl, dGet_dictInsert_self _ _ _,
          fun k hkne => dGet_dictInsert_other _ _ _ _ hkne⟩
  · intro s hm
    constructor
    · intro hle
      simp only [truncate]
      rw [if_neg (by omega : ¬(maxlen ≠ 0 ∧ maxlen < (normalize_ws s).length))]
    · intro hgt
      simp only [truncate]
      rw [if_pos ⟨hm, hgt⟩]

/-- Concrete instantiation of C8: a claim citing the absent id 999, the
    non-numeric string `"xx"`, and the present id 1 is enriched without an
    error into exactly one excerpt (for id 1). -/
theorem C8_enrich_spec_witness :
    ∃ cs', enrich_claims_with_source_chunks
        (.arr [.obj [("claim_text", .str "t"),
          ("source_citations", .arr [.num 999, .str "xx", .num 1])]])
        [(1, pC1)] 160 = .ok (.arr cs') := by
  obtain ⟨⟨cs', hcs', _⟩, _⟩ :=
    C8_enrich_spec [(1, pC1)] 160
      [.obj [("claim_text", .str "t"),
        ("source_citations", .arr [.num 999, .str "xx", .num 1])]]
      (by
        intro c hc
        rw [List.mem_singleton] at hc
        subst hc
        exact ⟨_, _, rfl, rfl⟩)
  exact ⟨cs', hcs'⟩

/-! ## C9: falsy company names are excluded from ranking and selection -/

theorem addScore_mem (acc : List (String × Rat)) (c : String) (s : Rat)
    (e : String × Rat) (h : e ∈ addScore acc c s) : e.1 = c ∨ e ∈ acc := by
  induction acc with
  | nil =>
    rw [addScore, List.mem_singleton] at h
    exact .inl (by rw [h])
  | cons a rest ih =>
    obtain ⟨c', s'⟩ := a
    rw [addScore] at h
    by_cases hc : c' = c
    · rw [if_pos hc] at h
      rcases List.mem_cons.mp h with h1 | h2
      · exact .inl (by rw [h1, hc])
      · exact .inr (List.mem_cons_of_mem _ h2)
    · rw [if_neg hc] at h
      rcases List.mem_cons.mp h with h1 | h2
      · exact .inr (by rw [h1]; exact List.mem_cons_self _ _)
      · rcases ih h2 with h3 | h4
        · exact .inl h3
        · exact .inr (List.mem_cons_of_mem _ h4)

theorem aggScores_aux_ne (rs : List Passage) (acc : List (String × Rat))
    (hacc : ∀ e ∈ acc, e.1 ≠ "") :
    ∀ e ∈ rs.foldl
      (fun acc r => if r.company ≠ "" then addScore acc r.company r.score else acc)
      acc, e.1 ≠ "" := by
  induction rs generalizing acc with
  | nil => simpa using hacc
  | cons r rs ih =>
    intro e he
    rw [List.foldl_cons] at he
    refine ih _ ?_ e he
    intro e' he'
    by_cases hr : r.company ≠ ""
    · rw [if_pos hr] at he'
      rcases addScore_mem _ _ _ _ he' with h1 | h2
      · rw [h1]; exact hr
      · exact hacc _ h2
    · rw [if_neg hr] at he'
      exact hacc _ he'

theorem insDesc_mem {α : Type} (f : α → Rat) (x : α) (l : List α) (e : α)
    (h : e ∈ insDesc f x l) : e = x ∨ e ∈ l := by
  induction l with
  | nil =>
    rw [insDesc, List.mem_singleton] at h
    exact .inl h
  | cons y ys ih =>
    rw [insDesc] at h
    by_cases hc : f y ≤ f x
    · rw [if_pos hc] at h
      rcases List.mem_cons.mp h with h1 | h2
      · exact .inl h1
      · exact .inr h2
    · rw [if_neg hc] at h
      rcases List.mem_cons.mp h with h1 | h2
      · exact .inr (by rw [h1]; exact List.mem_cons_self _ _)
      · rcases ih h2 with h3 | h4
        · exact .inl h3
        · exact .inr (List.mem_cons_of_mem _ h4)

theorem sortDesc_mem {α : Type} (f : α → Rat) (l : List α) (e : α)
    (h : e ∈ sortDesc f l) : e ∈ l := by
  induction l with
  | nil => simp [sortDesc] at h
  | cons x xs ih =>
    rw [sortDesc] at h
    rcases insDesc_mem _ _ _ _ h with h1 | h2
    · rw [h1]; exact List.mem_cons_self _ _
    · exact List.mem_cons_of_mem _ (ih h2)

theorem choose_company_mem (ranked : List (String × Rat)) (pref : Option String)
    (c : String) (h : choose_company ranked pref = some c) :
    ∃ s, (c, s) ∈ ranked := by
  cases ranked with
  | nil => simp [choose_company] at h
  | cons top rest =>
    simp only [choose_company] at h
    by_cases hp : pyTruthyOptStr pref
    · rw [if_pos hp] at h
      cases hf : List.find? (fun nr => match_company_name nr.1 (pref.getD ""))
          (top :: rest) with
      | none => rw [hf] at h; exact absurd h (by simp)
      | some nr =>
        rw [hf] at h
        obtain rfl : nr.1 = c := Option.some.inj h
        refine ⟨nr.2, ?_⟩
        have := List.mem_of_find?_eq_some hf
        simpa using this
    · rw [if_neg hp] at h
      obtain rfl : top.1 = c := Option.some.inj h
      exact ⟨top.2, by simp⟩

/-- C9: a passage whose company field is empty (falsy) contributes to no
    ranking entry, so the empty name never appears in `rank_companies` and
    `choose_company` never selects it. -/
theorem C9_empty_company_excluded (results : List Passage) (topn : Nat)
    (pref : Option String) :
    (∀ s : Rat, ("", s) ∉ rank_companies results topn)
    ∧ choose_company (rank_companies results topn) pref ≠ some "" := by
  have hmem : ∀ e ∈ rank_companies results topn, e.1 ≠ "" := by
    intro e he
    have h1 : e ∈ sortDesc (fun p => p.2) (aggScores results) :=
      List.mem_of_mem_take he
    have h2 : e ∈ aggScores results := sortDesc_mem _ _ _ h1
    exact aggScores_aux_ne results [] (by simp) e h2
  refine ⟨fun s hs => (hmem _ hs) rfl, fun heq => ?_⟩
  obtain ⟨s, hs⟩ := choose_company_mem _ _ _ heq
  exact hmem _ hs rfl

/-- Concrete instantiation of C9: with one passage for company A, the empty
    name is not selected. -/
theorem C9_empty_company_excluded_witness :
    choose_company (rank_companies [pC1] 5) none ≠ some "" :=
  (C9_empty_company_excluded [pC1] 5 none).2

/-! ## C6: company ranking — aggregates, descending order, stable ties -/

/-- The spec-side aggregate: the sum of the scores of the passages attributed
    to one company in a retrieval result. -/
def sumFor (c : String) (rs : List Passage) : Rat :=
  ((rs.filter (fun r => r.company = c)).map (fun r => r.score)).sum

def lookupScore (l : List (String × Rat)) (c : String) : Option Rat :=
  (l.find? (fun e => e.1 = c)).map (·.2)

/-- First occurrences of a key sequence, excluding keys already `seen`. -/
def firstKeysFrom {α : Type} [DecidableEq α] (seen : List α) : List α → List α
  | [] => []
  | c :: cs =>
    if c ∈ seen then firstKeysFrom seen cs
    else c :: firstKeysFrom (c :: seen) cs

theorem lookupScore_cons (c0 : String) (s0 : Rat) (rest : List (String × Rat))
    (c : String) :
    lookupScore ((c0, s0) :: rest) c =
      if c0 = c then some s0 else lookupScore rest c := by
  by_cases h : c0 = c <;> simp [lookupScore, List.find?, h]

theorem lookupScore_addScore_self (acc : List (String × Rat)) (c : String) (v : Rat) :
    lookupScore (addScore acc c v) c =
      match lookupScore acc c with
      | some s0 => some (s0 + v)
      | none => some v := by
  induction acc with
  | nil => simp [addScore, lookupScore, List.find?]
  | cons e rest ih =>
    obtain ⟨c0, s0⟩ := e
    rw [addScore]
    by_cases h : c0 = c
    · rw [if_pos h, lookupScore_cons, if_pos h, lookupScore_cons, if_pos h]
    · rw [if_neg h, lookupScore_cons, if_neg h, ih, lookupScore_cons, if_neg h]

theorem lookupScore_addScore_other (acc : List (String × Rat)) (c : String)
    (v : Rat) (c' : String) (h : c ≠ c') :
    lookupScore (addScore acc c v) c' = lookupScore acc c' := by
  induction acc with
  | nil => simp [addScore, lookupScore, List.find?, h]
  | cons e rest ih =>
    obtain ⟨c0, s0⟩ := e
    rw [addScore]
    by_cases hc : c0 = c
    · rw [if_pos hc, lookupScore_cons, lookupScore_cons, hc,
        if_neg h, if_neg h]
    · rw [if_neg hc, lookupScore_cons, lookupScore_cons]
      by_cases hc' : c0 = c'
      · rw [if_pos hc', if_pos hc']
      · rw [if_neg hc', if_neg hc', ih]

/-- The aggregation fold computes, for every nonempty company name, the sum
    of its passages' scores on top of whatever the accumulator held. -/
theorem aggScores_fold_lookup (rs : List Passage) (acc : List (String × Rat))
    (c : String) (hc : c ≠ "") :
    lookupScore (rs.foldl
      (fun acc r => if r.company ≠ "" then addScore acc r.company r.score else acc)
      acc) c =
      match lookupScore acc c with
      | some s0 => some (s0 + sumFor c rs)
      | none =>
        if (rs.filter (fun r => r.company = c)).isEmpty then none
        else some (sumFor c rs) := by
  induction rs generalizing acc with
  | nil =>
    cases h : lookupScore acc c <;> simp [sumFor, h]
  | cons r rs ih =>
    rw [List.foldl_cons]
    by_cases hr : r.company = c
    · have hrne : r.company ≠ "" := by rw [hr]; exact hc
      have hsum : sumFor c (r :: rs) = r.score + sumFor c rs := by
        simp [sumFor, List.filter_cons, hr]
      rw [if_pos hrne, ih, hr, lookupScore_addScore_self]
      cases h : lookupScore acc c with
      | some s0 =>
        simp only [h, hsum]
        rw [add_assoc]
      | none => simp [h, hsum, List.filter_cons, hr]
    · have hsum : sumFor c (r :: rs) = sumFor c rs := by
        simp [sumFor, List.filter_cons, hr]
      have hfil : ((r :: rs).filter (fun r => r.company = c)).isEmpty =
          (rs.filter (fun r => r.company = c)).isEmpty := by
        simp [List.filter_cons, hr]
      by_cases hrne : r.company ≠ ""
      · rw [if_pos hrne, ih, lookupScore_addScore_other _ _ _ _ hr, hsum, hfil]
      · rw [if_neg hrne, ih, hsum, hfil]

theorem mem_lookupScore (acc : List (String × Rat)) (c : String) (s : Rat)
    (hnd : (acc.map Prod.fst).Nodup) (h : (c, s) ∈ acc) :
    lookupScore acc c = some s := by
  induction acc with
  | nil => simp at h
  | cons e rest ih =>
    obtain ⟨c0, s0⟩ := e
    rw [List.map_cons, List.nodup_cons] at hnd
    rcases List.mem_cons.mp h with h1 | h2
    · obtain ⟨rfl, rfl⟩ := Prod.mk.injEq .. ▸ h1
      · rw [lookupScore_cons, if_pos rfl]
    · have hne : c0 ≠ c := by
        intro hh
        exact hnd.1 (hh ▸ (List.mem_map.mpr ⟨(c, s), h2, rfl⟩))
      rw [lookupScore_cons, if_neg hne]
      exact ih hnd.2 h2

theorem addScore_keys_mem (acc : List (String × Rat)) (c : String) (v : Rat)
    (h : c ∈ acc.map Prod.fst) :
    (addScore acc c v).map Prod.fst = acc.map Prod.fst := by
  induction acc with
  | nil => simp at h
  | cons e rest ih =>
    obtain ⟨c0, s0⟩ := e
    rw [addScore]
    by_cases hc : c0 = c
    · rw [if_pos hc]; simp
    · rw [if_neg hc]
      rw [List.map_cons] at h
      rcases List.mem_cons.mp h with h1 | h2
      · exact absurd h1.symm hc
      · simp [ih h2]

theorem addScore_keys_new (acc : List (String × Rat)) (c : String) (v : Rat)
    (h : c ∉ acc.map Prod.fst) :
    (addScore acc c v).map Prod.fst = acc.map Prod.fst ++ [c] := by
  induction acc with
  | nil => simp [addScore]
  | cons e rest ih =>
    obtain ⟨c0, s0⟩ := e
    rw [addScore]
    rw [List.map_cons, List.mem_cons] at h
    push_neg at h
    rw [if_neg (fun hh => h.1 hh.symm)]
    simp [ih h.2]

theorem firstKeysFrom_congr {α : Type} [DecidableEq α] (cs : List α)
    (seen1 seen2 : List α)
    (h : ∀ x, x ∈ seen1 ↔ x ∈ seen2) :
    firstKeysFrom seen1 cs = firstKeysFrom seen2 cs := by
  induction cs generalizing seen1 seen2 with
  | nil => rfl
  | cons c cs ih =>
    rw [firstKeysFrom, firstKeysFrom]
    by_cases hc : c ∈ seen1
    · rw [if_pos hc, if_pos ((h c).mp hc)]
      exact ih _ _ h
    · rw [if_neg hc, if_neg (fun hh => hc ((h c).mpr hh))]
      refine congrArg (c :: ·) (ih _ _ ?_)
      intro x
      simp only [List.mem_cons]
      exact ⟨fun hx => hx.elim .inl (fun h2 => .inr ((h x).mp h2)),
        fun hx => hx.elim .inl (fun h2 => .inr ((h x).mpr h2))⟩

/-- The keys of the aggregation fold are the accumulator's keys followed by
    the first occurrences of the (nonempty) companies not seen yet: company
    ranking entries appear in first-seen order. -/
theorem aggScores_fold_keys (rs : List Passage) (acc : List (String × Rat)) :
    (rs.foldl
      (fun acc r => if r.company ≠ "" then addScore acc r.company r.score else acc)
      acc).map Prod.fst =
      acc.map Prod.fst ++
        firstKeysFrom (acc.map Prod.fst)
          ((rs.map (fun r => r.company)).filter (fun c => c ≠ "")) := by
  induction rs generalizing acc with
  | nil => simp [firstKeysFrom]
  | cons r rs ih =>
    rw [List.foldl_cons, List.map_cons]
    by_cases hr : r.company ≠ ""
    · rw [if_pos hr]
      rw [List.filter_cons, if_pos (by simpa using hr), firstKeysFrom]
      by_cases hm : r.company ∈ acc.map Prod.fst
      · rw [if_pos hm, ih, addScore_keys_mem _ _ _ hm]
      · rw [if_neg hm, ih, addScore_keys_new _ _ _ hm]
        rw [List.append_assoc]
        refine congrArg (acc.map Prod.fst ++ ·) ?_
        rw [List.singleton_append]
        refine congrArg (r.company :: ·) ?_
        apply firstKeysFrom_congr
        intro x
        simp [List.mem_append, or_comm]
    · rw [if_neg hr, List.filter_cons, if_neg (by simpa using hr), ih]

theorem firstKeysFrom_nodup {α : Type} [DecidableEq α] (cs seen : List α) :
    (firstKeysFrom seen cs).Nodup ∧ ∀ x ∈ firstKeysFrom seen cs, x ∉ seen := by
  induction cs generalizing seen with
  | nil => simp [firstKeysFrom]
  | cons c cs ih =>
    rw [firstKeysFrom]
    by_cases hc : c ∈ seen
    · rw [if_pos hc]; exact ih seen
    · rw [if_neg hc]
      obtain ⟨hnd, hnotin⟩ := ih (c :: seen)
      refine ⟨List.nodup_cons.mpr ⟨?_, hnd⟩, ?_⟩
      · intro hmem
        exact hnotin c hmem (List.mem_cons_self _ _)
      · intro x hx
        rcases List.mem_cons.mp hx with h1 | h2
        · rw [h1]; exact hc
        · exact fun hs => hnotin x h2 (List.mem_cons_of_mem _ hs)

/-! Sortedness and stability of the descending insertion model of Python's
    stable `sorted(..., reverse=True)`. -/

theorem insDesc_pairwise {α : Type} (f : α → Rat) (x : α) (l : List α)
    (h : l.Pairwise (fun a b => f b ≤ f a)) :
    (insDesc f x l).Pairwise (fun a b => f b ≤ f a) := by
  induction l with
  | nil => simp [insDesc]
  | cons y ys ih =>
    rw [insDesc]
    rw [List.pairwise_cons] at h
    by_cases hc : f y ≤ f x
    · rw [if_pos hc]
      refine List.pairwise_cons.mpr ⟨?_, List.pairwise_cons.mpr h⟩
      intro z hz
      rcases List.mem_cons.mp hz with h1 | h2
      · rw [h1]; exact hc
      · exact le_trans (h.1 z h2) hc
    · rw [if_neg hc]
      refine List.pairwise_cons.mpr ⟨?_, ih h.2⟩
      intro z hz
      rcases insDesc_mem _ _ _ _ hz with h1 | h2
      · rw [h1]; exact le_of_lt (lt_of_not_le hc)
      · exact h.1 z h2

theorem sortDesc_pairwise {α : Type} (f : α → Rat) (l : List α) :
    (sortDesc f l).Pairwise (fun a b => f b ≤ f a) := by
  induction l with
  | nil => simp [sortDesc]
  | cons x xs ih => exact insDesc_pairwise f x _ ih

theorem insDesc_decomp {α : Type} (f : α → Rat) (x : α) (l : List α) :
    ∃ l1 l2, l = l1 ++ l2 ∧ insDesc f x l = l1 ++ x :: l2 ∧
      ∀ y ∈ l1, f x < f y := by
  induction l with
  | nil => exact ⟨[], [], rfl, rfl, by simp⟩
  | cons y ys ih =>
    rw [insDesc]
    by_cases hc : f y ≤ f x
    · exact ⟨[], y :: ys, rfl, by rw [if_pos hc]; rfl, by simp⟩
    · obtain ⟨l1, l2, hl, hins, hgt⟩ := ih
      refine ⟨y :: l1, l2, by rw [hl]; rfl, ?_, ?_⟩
      · rw [if_neg hc, hins]; rfl
      · intro z hz
        rcases List.mem_cons.mp hz with h1 | h2
        · rw [h1]; exact lt_of_not_le hc
        · exact hgt z h2

theorem sublist_insDesc {α : Type} (f : α → Rat) (x : α) (l : List α)
    (s : List α) (h : s.Sublist l) : s.Sublist (insDesc f x l) := by
  obtain ⟨l1, l2, hl, hins, _⟩ := insDesc_decomp f x l
  rw [hins]
  refine h.trans ?_
  rw [hl]
  exact (List.sublist_cons_self x l2).append_left l1

theorem tie_head_sublist {α : Type} (f : α → Rat) (x b : α) (s : List α)
    (hb : b ∈ s) (htie : f b = f x) : [x, b].Sublist (insDesc f x s) := by
  obtain ⟨l1, l2, hl, hins, hgt⟩ := insDesc_decomp f x s
  rw [hins]
  have hb2 : b ∈ l2 := by
    rw [hl] at hb
    rcases List.mem_append.mp hb with h1 | h2
    · exact absurd (htie ▸ hgt b h1) (lt_irrefl _)
    · exact h2
  have hxb : [x, b].Sublist (x :: l2) :=
    List.Sublist.cons₂ x (List.singleton_sublist.mpr hb2)
  exact hxb.trans (List.sublist_append_right l1 (x :: l2))

theorem insDesc_mem_iff {α : Type} (f : α → Rat) (x : α) (l : List α) (e : α) :
    e ∈ insDesc f x l ↔ e = x ∨ e ∈ l := by
  induction l with
  | nil => simp [insDesc]
  | cons y ys ih =>
    rw [insDesc]
    by_cases hc : f y ≤ f x
    · rw [if_pos hc]; simp
    · rw [if_neg hc]
      simp only [List.mem_cons, ih]
      tauto

theorem mem_sortDesc {α : Type} (f : α → Rat) (l : List α) (e : α) :
    e ∈ sortDesc f l ↔ e ∈ l := by
  induction l with
  | nil => simp [sortDesc]
  | cons x xs ih =>
    rw [sortDesc, insDesc_mem_iff]
    simp [ih]

theorem stable_sortDesc {α : Type} (f : α → Rat) (l : List α) (a b : α)
    (htie : f a = f b) (h : [a, b].Sublist l) :
    [a, b].Sublist (sortDesc f l) := by
  induction l with
  | nil => simp at h
  | cons x xs ih =>
    rw [sortDesc]
    cases h with
    | cons _ h' =>
      exact sublist_insDesc f x _ _ (ih h')
    | cons₂ _ h' =>
      have hb : b ∈ sortDesc f xs :=
        (mem_sortDesc f xs b).mpr (List.singleton_sublist.mp h')
      exact tie_head_sublist f a b _ hb htie.symm

/-- The three passages of the spec's concrete ranking example:
    scores {A: 0.9, A: 0.2, B: 0.5}. -/
def pA9 : Passage := ⟨1, 9/10, "A", .null, .null, "a one"⟩
def pA2 : Passage := ⟨2, 2/10, "A", .null, .null, "a two"⟩
def pB5 : Passage := ⟨3, 5/10, "B", .null, .null, "b one"⟩

/-- C6: `rank_companies` assigns every listed company the sum of its
    passages' scores, is sorted descending by aggregate (it is the `topn`
    prefix of the stable descending sort of the aggregation list), ties keep
    the order of the aggregation list, whose keys are exactly the nonempty
    companies in first-seen order; without a preference `choose_company`
    returns the top-ranked company; and the concrete example
    {A: 0.9, A: 0.2, B: 0.5} ranks A(1.1) before B(0.5) and selects A. -/
theorem C6_ranking_spec :
    (∀ (results : List Passage) (topn : Nat) (c : String) (s : Rat),
        (c, s) ∈ rank_companies results topn → s = sumFor c results)
    ∧ (∀ (results : List Passage) (topn : Nat),
        (rank_companies results topn).Pairwise (fun a b => b.2 ≤ a.2))
    ∧ (∀ (results : List Passage) (topn : Nat),
        rank_companies results topn =
          (sortDesc (fun p => p.2) (aggScores results)).take topn)
    ∧ (∀ (results : List Passage) (a b : String × Rat), a.2 = b.2 →
        [a, b].Sublist (aggScores results) →
        [a, b].Sublist (sortDesc (fun p => p.2) (aggScores results)))
    ∧ (∀ results : List Passage,
        (aggScores results).map Prod.fst =
          firstKeysFrom []
            ((results.map (fun r => r.company)).filter (fun c => c ≠ "")))
    ∧ (∀ (top : String × Rat) (rest : List (String × Rat)),
        choose_company (top :: rest) none = some top.1)
    ∧ rank_companies [pA9, pA2, pB5] 5 = [("A", 11/10), ("B", 1/2)]
    ∧ choose_company (rank_companies [pA9, pA2, pB5] 5) none = some "A" := by
  have hkeys : ∀ results : List Passage,
      ((aggScores results).map Prod.fst).Nodup := by
    intro results
    rw [aggScores, aggScores_fold_keys]
    simpa using (firstKeysFrom_nodup
      ((results.map (fun r => r.company)).filter (fun c => c ≠ "")) []).1
  refine ⟨?_, ?_, fun _ _ => rfl, ?_, ?_, fun _ _ => rfl, ?_, ?_⟩
  · intro results topn c s hmem
    have h1 : (c, s) ∈ sortDesc (fun p => p.2) (aggScores results) :=
      List.mem_of_mem_take hmem
    have h2 : (c, s) ∈ aggScores results := sortDesc_mem _ _ _ h1
    have hc : c ≠ "" := aggScores_aux_ne results [] (by simp) (c, s) h2
    have hlook : lookupScore (aggScores results) c = some s :=
      mem_lookupScore _ _ _ (hkeys results) h2
    rw [aggScores, aggScores_fold_lookup results [] c hc] at hlook
    simp only [lookupScore, List.find?, Option.map_none'] at hlook
    by_cases hfe : (results.filter (fun r => r.company = c)).isEmpty
    · rw [if_pos hfe] at hlook
      exact absurd hlook (by simp)
    · rw [if_neg hfe] at hlook
      exact (Option.some.inj hlook).symm
  · intro results topn
    exact ((sortDesc_pairwise (fun p : String × Rat => p.2)
      (aggScores results)).sublist (List.take_sublist _ _))
  · intro results a b htie hsub
    exact stable_sortDesc _ _ _ _ htie hsub
  · intro results
    rw [aggScores, aggScores_fold_keys]
    simp
  · norm_num [rank_companies, aggScores, addScore, sortDesc, insDesc,
      pA9, pA2, pB5]
  · norm_num [rank_companies, aggScores, addScore, sortDesc, insDesc,
      choose_company, pyTruthyOptStr, pA9, pA2, pB5]

/-- Concrete instantiation of C6: in the {A: 0.9, A: 0.2, B: 0.5} example,
    the ranked aggregate 1.1 of A is the sum of A's passage scores. -/
theorem C6_ranking_spec_witness : (11/10 : Rat) = sumFor "A" [pA9, pA2, pB5] := by
  refine C6_ranking_spec.1 [pA9, pA2, pB5] 5 "A" (11/10) ?_
  rw [C6_ranking_spec.2.2.2.2.2.2.1]
  simp

/-! ## C3/C4/C10: the deduplication fold -/

/-- Inversion of a successful `Except` bind. -/
theorem exceptBind_ok {ε α β : Type} (m : Except ε α) (f : α → Except ε β)
    (b : β) (h : m.bind f = .ok b) : ∃ a, m = .ok a ∧ f a = .ok b := by
  cases m with
  | error e => exact Except.noConfusion h
  | ok a => exact ⟨a, rfl, h⟩

theorem lookupEntry_cons (k0 : CKey) (e0 : Json) (rest : List DEntry) (k : CKey) :
    lookupEntry ((k0, e0) :: rest) k =
      if k0 = k then some e0 else lookupEntry rest k := by
  by_cases h : k0 = k <;> simp [lookupEntry, List.find?, h]

theorem lookupEntry_append_right (acc : List DEntry) (tail : List DEntry)
    (k : CKey) (h : lookupEntry acc k = none) :
    lookupEntry (acc ++ tail) k = lookupEntry tail k := by
  induction acc with
  | nil => rfl
  | cons e rest ih =>
    obtain ⟨k0, e0⟩ := e
    rw [lookupEntry_cons] at h
    rw [List.cons_append, lookupEntry_cons]
    by_cases hk : k0 = k
    · rw [if_pos hk] at h; exact absurd h (by simp)
    · rw [if_neg hk] at h ⊢
      exact ih h

theorem lookupEntry_append_left (acc : List DEntry) (tail : List DEntry)
    (k : CKey) (e : Json) (h : lookupEntry acc k = some e) :
    lookupEntry (acc ++ tail) k = some e := by
  induction acc with
  | nil => simp [lookupEntry, List.find?] at h
  | cons p rest ih =>
    obtain ⟨k0, e0⟩ := p
    rw [lookupEntry_cons] at h
    rw [List.cons_append, lookupEntry_cons]
    by_cases hk : k0 = k
    · rw [if_pos hk] at h ⊢; exact h
    · rw [if_neg hk] at h ⊢
      exact ih h

theorem lookupEntry_updateEntry_self (acc : List DEntry) (k : CKey) (v : Json)
    (e : Json) (h : lookupEntry acc k = some e) :
    lookupEntry (updateEntry acc k v) k = some v := by
  induction acc with
  | nil => simp [lookupEntry, List.find?] at h
  | cons p rest ih =>
    rw [lookupEntry_cons] at h
    by_cases hk : p.1 = k
    · simp [updateEntry, lookupEntry_cons, hk]
    · rw [if_neg hk] at h
      simp only [updateEntry, List.map_cons, if_neg hk]
      rw [lookupEntry_cons]
      simp only [if_neg hk]
      exact ih h

theorem lookupEntry_updateEntry_other (acc : List DEntry) (k : CKey) (v : Json)
    (k' : CKey) (h : k' ≠ k) :
    lookupEntry (updateEntry acc k v) k' = lookupEntry acc k' := by
  induction acc with
  | nil => rfl
  | cons p rest ih =>
    simp only [updateEntry, List.map_cons]
    by_cases hk : p.1 = k
    · rw [if_pos hk, lookupEntry_cons, lookupEntry_cons]
      have hne : p.1 ≠ k' := fun hh => h (hh ▸ hk)
      rw [if_neg hne, if_neg hne]
      exact ih
    · rw [if_neg hk, lookupEntry_cons, lookupEntry_cons]
      by_cases hk' : p.1 = k'
      · rw [if_pos hk', if_pos hk']
      · rw [if_neg hk', if_neg hk']
        exact ih

theorem updateEntry_keys (acc : List DEntry) (k : CKey) (v : Json) :
    (updateEntry acc k v).map Prod.fst = acc.map Prod.fst := by
  induction acc with
  | nil => rfl
  | cons p rest ih =>
    simp only [updateEntry, List.map_cons] at ih ⊢
    by_cases hk : p.1 = k
    · simp [hk, ih]
    · simp [hk, ih]

theorem lookupEntry_none_iff (acc : List DEntry) (k : CKey) :
    lookupEntry acc k = none ↔ k ∉ acc.map Prod.fst := by
  induction acc with
  | nil => simp [lookupEntry, List.find?]
  | cons p rest ih =>
    obtain ⟨k0, e0⟩ := p
    rw [lookupEntry_cons, List.map_cons, List.mem_cons]
    by_cases hk : k0 = k
    · simp [hk]
    · simp only [if_neg hk, ih]
      constructor
      · intro hn hor
        rcases hor with h1 | h2
        · exact hk h1.symm
        · exact hn h2
      · intro hn
        exact fun h2 => hn (.inr h2)

theorem lookupEntry_some_mem (acc : List DEntry) (k : CKey) (e : Json)
    (h : lookupEntry acc k = some e) : (k, e) ∈ acc := by
  induction acc with
  | nil => simp [lookupEntry, List.find?] at h
  | cons p rest ih =>
    obtain ⟨k0, e0⟩ := p
    rw [lookupEntry_cons] at h
    by_cases hk : k0 = k
    · rw [if_pos hk] at h
      obtain rfl : e0 = e := Option.some.inj h
      rw [← hk]
      exact List.mem_cons_self _ _
    · rw [if_neg hk] at h
      exact List.mem_cons_of_mem _ (ih h)

/-- The claims of a keyed claim list sharing a given dedup key, in order. -/
def groupOf (kcs : List (CKey × Json)) (k : CKey) : List Json :=
  (kcs.filter (fun p => p.1 = k)).map Prod.snd

theorem groupOf_cons (k0 : CKey) (c : Json) (rest : List (CKey × Json)) (k : CKey) :
    groupOf ((k0, c) :: rest) k =
      if k0 = k then c :: groupOf rest k else groupOf rest k := by
  by_cases h : k0 = k <;> simp [groupOf, List.filter_cons, h]

/-- A successful merge leaves the stored claim a dict in which only the
    `source_citations` and `source_chunks` entries were rewritten. -/
theorem mergeClaims_ok_shape (e c e' : Json) (hm : mergeClaims e c = .ok e') :
    ∃ ed, e = .obj ed ∧ ∃ cites sum,
      e' = .obj (dictInsert (dictInsert ed "source_citations" cites)
        "source_chunks" sum) := by
  cases e with
  | obj ed =>
    cases c with
    | obj cd =>
      have hm' : ((pyIterList (dGetD ed "source_citations" (.arr []))).bind
          fun citesOld =>
            (pyIterList (dGetD cd "source_citations" (.arr []))).bind
              fun citesNew =>
                (pyAdd
                  (dGetD (dictInsert ed "source_citations"
                    (.arr ((sortedSet (citesOld.map pyStr ++ citesNew.map pyStr)).map .str)))
                    "source_chunks" (.arr []))
                  (if pyTruthy (dGetD cd "source_chunks" (.arr [])) then
                    dGetD cd "source_chunks" (.arr []) else .arr [])).bind
                  fun sum =>
                    .ok (.obj (dictInsert
                      (dictInsert ed "source_citations"
                        (.arr ((sortedSet (citesOld.map pyStr ++ citesNew.map pyStr)).map .str)))
                      "source_chunks" sum))) = .ok e' := hm
      obtain ⟨citesOld, _, h2⟩ := exceptBind_ok _ _ _ hm'
      obtain ⟨citesNew, _, h3⟩ := exceptBind_ok _ _ _ h2
      obtain ⟨sum, _, h4⟩ := exceptBind_ok _ _ _ h3
      exact ⟨ed, rfl, _, sum, (Except.ok.inj h4).symm⟩
    | null => exact Except.noConfusion hm
    | bool b => exact Except.noConfusion hm
    | num n => exact Except.noConfusion hm
    | str s => exact Except.noConfusion hm
    | rat q => exact Except.noConfusion hm
    | arr xs => exact Except.noConfusion hm
  | null => exact Except.noConfusion hm
  | bool b => exact Except.noConfusion hm
  | num n => exact Except.noConfusion hm
  | str s => exact Except.noConfusion hm
  | rat q => exact Except.noConfusion hm
  | arr xs => exact Except.noConfusion hm

/-- Lemma: `keyOf` only reads the four key fields of a claim dict. -/
theorem keyOf_obj_congr (kvs1 kvs2 : List (String × Json))
    (hco : dGet kvs1 "company" = dGet kvs2 "company")
    (hct : dGet kvs1 "claim_text" = dGet kvs2 "claim_text")
    (hto : dGet kvs1 "topic" = dGet kvs2 "topic")
    (hme : dGet kvs1 "metric" = dGet kvs2 "metric") :
    keyOf (.obj kvs1) = keyOf (.obj kvs2) := by
  have h1 : ∀ kvs : List (String × Json), keyOf (.obj kvs) =
      ((normWsJson (dGetD kvs "claim_text" (.str ""))).bind fun ct =>
        (canonScalar (dGetD kvs "company" (.str ""))).bind fun compK =>
          (canonScalar (dGetD kvs "topic" (.str ""))).bind fun topK =>
            (canonScalar (dGetD kvs "metric" (.str ""))).bind fun metK =>
              .ok ⟨compK, ct, topK, metK⟩) := fun _ => rfl
  rw [h1, h1]
  rw [show dGetD kvs1 "claim_text" (.str "") = dGetD kvs2 "claim_text" (.str "")
      from by rw [dGetD, dGetD, hct],
    show dGetD kvs1 "company" (.str "") = dGetD kvs2 "company" (.str "")
      from by rw [dGetD, dGetD, hco],
    show dGetD kvs1 "topic" (.str "") = dGetD kvs2 "topic" (.str "")
      from by rw [dGetD, dGetD, hto],
    show dGetD kvs1 "metric" (.str "") = dGetD kvs2 "metric" (.str "")
      from by rw [dGetD, dGetD, hme]]

/-- Merging a duplicate does not change the stored claim's dedup key. -/
theorem keyOf_mergeClaims (e c e' : Json) (k : CKey)
    (hk : keyOf e = .ok k) (hm : mergeClaims e c = .ok e') :
    keyOf e' = .ok k := by
  obtain ⟨ed, rfl, cites, sum, rfl⟩ := mergeClaims_ok_shape e c e' hm
  rw [← hk]
  apply keyOf_obj_congr <;>
    rw [dGet_dictInsert_other _ _ _ _ (by decide),
      dGet_dictInsert_other _ _ _ _ (by decide)]

theorem dedupeFold_cons (acc : List DEntry) (c : Json) (cs : List Json) :
    dedupeFold acc (c :: cs) =
      (dedupeStep acc c).bind fun acc' => dedupeFold acc' cs := rfl

/-- Inversion of one successful dedup step: the claim's key was computed, and
    either a same-key entry existed and the claim merged into it, or a fresh
    entry was appended. -/
theorem dedupeStep_ok (acc : List DEntry) (c : Json) (acc' : List DEntry)
    (h : dedupeStep acc c = .ok acc') :
    ∃ k, keyOf c = .ok k ∧
      ((∃ e e', lookupEntry acc k = some e ∧ mergeClaims e c = .ok e' ∧
          acc' = updateEntry acc k e')
       ∨ (lookupEntry acc k = none ∧ acc' = acc ++ [(k, c)])) := by
  have h' : ((keyOf c).bind fun k =>
      match lookupEntry acc k with
      | some e => (mergeClaims e c).bind fun e' => .ok (updateEntry acc k e')
      | none => .ok (acc ++ [(k, c)])) = .ok acc' := h
  obtain ⟨k, hk, h2⟩ := exceptBind_ok _ _ _ h'
  refine ⟨k, hk, ?_⟩
  cases hlook : lookupEntry acc k with
  | some e =>
    rw [hlook] at h2
    obtain ⟨e', hm, h3⟩ := exceptBind_ok _ _ _ h2
    exact .inl ⟨e, e', rfl, hm, (Except.ok.inj h3).symm⟩
  | none =>
    rw [hlook] at h2
    have h3 : Except.ok (ε := PyErr) (acc ++ [(k, c)]) = .ok acc' := h2
    exact .inr ⟨rfl, (Except.ok.inj h3).symm⟩

theorem dedupeFold_keys_exist (cs : List Json) :
    ∀ acc fin, dedupeFold acc cs = .ok fin →
      ∃ ks, List.Forall₂ (fun c k => keyOf c = .ok k) cs ks := by
  induction cs with
  | nil => exact fun _ _ _ => ⟨[], .nil⟩
  | cons c cs ih =>
    intro acc fin h
    rw [dedupeFold_cons] at h
    obtain ⟨acc', hstep, hrest⟩ := exceptBind_ok _ _ _ h
    obtain ⟨k, hk, _⟩ := dedupeStep_ok _ _ _ hstep
    obtain ⟨ks, hks⟩ := ih acc' fin hrest
    exact ⟨k :: ks, .cons hk hks⟩

/-- Characterization of the dedup fold: for every key, the final entry under
    that key is the left fold of `mergeClaims` over the claims carrying the
    key, started from the stored entry — or from the first such claim when
    the key is new.  This is the "first occurrence is canonical, later
    occurrences merge into it" discipline. -/
theorem dedupeFold_char (k : CKey) (cs : List Json) (ks : List CKey)
    (hks : List.Forall₂ (fun c k => keyOf c = .ok k) cs ks) :
    ∀ acc fin, dedupeFold acc cs = .ok fin →
      (∀ e0, lookupEntry acc k = some e0 →
        ∃ e', List.foldlM mergeClaims e0 (groupOf (ks.zip cs) k) = .ok e' ∧
          lookupEntry fin k = some e')
      ∧ (lookupEntry acc k = none →
          (groupOf (ks.zip cs) k = [] → lookupEntry fin k = none)
          ∧ ∀ c0 rest, groupOf (ks.zip cs) k = c0 :: rest →
              ∃ e', List.foldlM mergeClaims c0 rest = .ok e' ∧
                lookupEntry fin k = some e') := by
  induction hks with
  | nil =>
    intro acc fin h
    obtain rfl : acc = fin := Except.ok.inj (h : Except.ok acc = .ok fin)
    refine ⟨fun e0 he0 => ⟨e0, rfl, he0⟩, fun hn => ⟨fun _ => hn, ?_⟩⟩
    intro c0 rest hg
    exact absurd hg (by simp [groupOf])
  | @cons c k0 cs' ks' hck hfa ih =>
    intro acc fin h
    rw [dedupeFold_cons] at h
    obtain ⟨acc', hstep, hrest⟩ := exceptBind_ok _ _ _ h
    obtain ⟨k1, hk1, hbranch⟩ := dedupeStep_ok _ _ _ hstep
    obtain rfl : k0 = k1 := by
      rw [hck] at hk1
      exact Except.ok.inj hk1
    have hzip : (k0 :: ks').zip (c :: cs') = (k0, c) :: ks'.zip cs' := rfl
    rw [hzip, groupOf_cons]
    rcases hbranch with ⟨e, e1, hle, hme, rfl⟩ | ⟨hln, rfl⟩
    · by_cases hkk : k0 = k
      · subst hkk
        rw [if_pos rfl]
        constructor
        · intro e0 he0
          rw [hle] at he0
          have hee : e0 = e := (Option.some.inj he0).symm
          rw [hee]
          obtain ⟨e', hf, hl⟩ := (ih _ _ hrest).1 e1
            (lookupEntry_updateEntry_self acc k0 e1 e hle)
          refine ⟨e', ?_, hl⟩
          have hfc : List.foldlM mergeClaims e (c :: groupOf (ks'.zip cs') k0) =
              (mergeClaims e c).bind fun b =>
                List.foldlM mergeClaims b (groupOf (ks'.zip cs') k0) := rfl
          rw [hfc, hme]
          exact hf
        · intro hnone
          rw [hle] at hnone
          exact absurd hnone (by simp)
      · rw [if_neg hkk]
        have heq := lookupEntry_updateEntry_other acc k0 e1 k
          (fun hh => hkk hh.symm)
        constructor
        · intro e0 he0
          exact (ih _ _ hrest).1 e0 (by rw [heq]; exact he0)
        · intro hnone
          exact (ih _ _ hrest).2 (by rw [heq]; exact hnone)
    · by_cases hkk : k0 = k
      · subst hkk
        rw [if_pos rfl]
        constructor
        · intro e0 he0
          rw [hln] at he0
          exact absurd he0 (by simp)
        · intro _
          constructor
          · intro hg
            exact absurd hg (by simp)
          · intro c0 rest hg
            obtain ⟨h1, h2⟩ : c0 = c ∧ rest = groupOf (ks'.zip cs') k0 := by
              injection hg with h1 h2
              exact ⟨h1.symm, h2.symm⟩
            rw [h1, h2]
            have hlacc' : lookupEntry (acc ++ [(k0, c)]) k0 = some c := by
              rw [lookupEntry_append_right acc _ k0 hln, lookupEntry_cons,
                if_pos rfl]
            exact (ih _ _ hrest).1 c hlacc'
      · rw [if_neg hkk]
        have heq : lookupEntry (acc ++ [(k0, c)]) k = lookupEntry acc k := by
          cases hl : lookupEntry acc k with
          | some e0 => rw [lookupEntry_append_left acc _ k e0 hl]
          | none =>
            rw [lookupEntry_append_right acc _ k hl, lookupEntry_cons,
              if_neg hkk]
            rfl
        constructor
        · intro e0 he0
          exact (ih _ _ hrest).1 e0 (by rw [heq]; exact he0)
        · intro hnone
          exact (ih _ _ hrest).2 (by rw [heq]; exact hnone)

/-- The final entry list's keys are the accumulator's keys followed by the
    first occurrences of the claims' keys: output preserves first-occurrence
    order. -/
theorem dedupeFold_keys (cs : List Json) (ks : List CKey)
    (hks : List.Forall₂ (fun c k => keyOf c = .ok k) cs ks) :
    ∀ acc fin, dedupeFold acc cs = .ok fin →
      fin.map Prod.fst =
        acc.map Prod.fst ++ firstKeysFrom (acc.map Prod.fst) ks := by
  induction hks with
  | nil =>
    intro acc fin h
    obtain rfl : acc = fin := Except.ok.inj (h : Except.ok acc = .ok fin)
    simp [firstKeysFrom]
  | @cons c k0 cs' ks' hck hfa ih =>
    intro acc fin h
    rw [dedupeFold_cons] at h
    obtain ⟨acc', hstep, hrest⟩ := exceptBind_ok _ _ _ h
    obtain ⟨k1, hk1, hbranch⟩ := dedupeStep_ok _ _ _ hstep
    obtain rfl : k0 = k1 := by
      rw [hck] at hk1
      exact Except.ok.inj hk1
    rw [firstKeysFrom]
    rcases hbranch with ⟨e, e1, hle, _, rfl⟩ | ⟨hln, rfl⟩
    · have hmem : k0 ∈ acc.map Prod.fst := by
        by_contra hno
        rw [(lookupEntry_none_iff acc k0).mpr hno] at hle
        exact Option.noConfusion hle
      rw [if_pos hmem, ih _ _ hrest, updateEntry_keys]
    · have hno : k0 ∉ acc.map Prod.fst := (lookupEntry_none_iff acc k0).mp hln
      rw [if_neg hno, ih _ _ hrest]
      rw [List.map_append]
      rw [List.append_assoc]
      refine congrArg (acc.map Prod.fst ++ ·) ?_
      rw [show (([(k0, c)] : List DEntry).map Prod.fst) = [k0] from rfl,
        List.singleton_append]
      refine congrArg (k0 :: ·) ?_
      apply firstKeysFrom_congr
      intro x
      simp [or_comm]

/-- Every stored entry's claim recomputes to its stored key. -/
theorem dedupeFold_selfkey (cs : List Json) :
    ∀ acc fin, dedupeFold acc cs = .ok fin →
      (∀ p ∈ acc, keyOf p.2 = .ok p.1) → ∀ p ∈ fin, keyOf p.2 = .ok p.1 := by
  induction cs with
  | nil =>
    intro acc fin h hself
    obtain rfl : acc = fin := Except.ok.inj (h : Except.ok acc = .ok fin)
    exact hself
  | cons c cs ih =>
    intro acc fin h hself
    rw [dedupeFold_cons] at h
    obtain ⟨acc', hstep, hrest⟩ := exceptBind_ok _ _ _ h
    obtain ⟨k, hk, hbranch⟩ := dedupeStep_ok _ _ _ hstep
    refine ih acc' fin hrest ?_
    rcases hbranch with ⟨e, e1, hle, hme, rfl⟩ | ⟨hln, rfl⟩
    · intro p hp
      rw [updateEntry] at hp
      obtain ⟨q, hq, hfq⟩ := List.mem_map.mp hp
      by_cases hq1 : q.1 = k
      · rw [if_pos hq1] at hfq
        have hkey_e : keyOf e = .ok k :=
          hq1 ▸ hself (k, e) (hq1 ▸ lookupEntry_some_mem acc k e hle)
        have : keyOf e1 = .ok k := keyOf_mergeClaims e c e1 k hkey_e hme
        rw [← hfq]
        simpa [hq1] using this
      · rw [if_neg hq1] at hfq
        rw [← hfq]
        exact hself q hq
    · intro p hp
      rcases List.mem_append.mp hp with h1 | h2
      · exact hself p h1
      · rw [List.mem_singleton] at h2
        rw [h2]
        exact hk

/-- On a claim list with pairwise distinct keys unseen by the accumulator,
    the fold merges nothing: it just appends every claim. -/
theorem dedupeFold_nomerge (cs : List Json) (ks : List CKey)
    (hks : List.Forall₂ (fun c k => keyOf c = .ok k) cs ks) :
    ks.Nodup → ∀ acc, (∀ k ∈ ks, lookupEntry acc k = none) →
      dedupeFold acc cs = .ok (acc ++ ks.zip cs) := by
  induction hks with
  | nil =>
    intro _ acc _
    rw [show (([] : List CKey).zip ([] : List Json)) = [] from rfl,
      List.append_nil]
    rfl
  | @cons c k0 cs' ks' hck hfa ih =>
    intro hnd acc hnone
    rw [dedupeFold_cons]
    have h1 : dedupeStep acc c = .ok (acc ++ [(k0, c)]) := by
      have hdef : dedupeStep acc c = ((keyOf c).bind fun k =>
          match lookupEntry acc k with
          | some e => (mergeClaims e c).bind fun e' => .ok (updateEntry acc k e')
          | none => .ok (acc ++ [(k, c)])) := rfl
      rw [hdef, hck]
      show (match lookupEntry acc k0 with
        | some e => (mergeClaims e c).bind fun e' => .ok (updateEntry acc k0 e')
        | none => .ok (acc ++ [(k0, c)])) = .ok (acc ++ [(k0, c)])
      rw [hnone k0 (List.mem_cons_self _ _)]
    rw [h1]
    show dedupeFold (acc ++ [(k0, c)]) cs' = .ok (acc ++ (k0, c) :: ks'.zip cs')
    have hnd' := (List.nodup_cons.mp hnd).2
    have hk0notin := (List.nodup_cons.mp hnd).1
    rw [ih hnd' (acc ++ [(k0, c)]) ?_]
    · rw [List.append_assoc]
      rfl
    · intro k hk
      have hne : k0 ≠ k := fun hh => hk0notin (hh ▸ hk)
      rw [lookupEntry_append_right acc _ k (hnone k (List.mem_cons_of_mem _ hk)),
        lookupEntry_cons, if_neg hne]
      rfl

theorem zip_fst_snd {α β : Type} (l : List (α × β)) :
    (l.map Prod.fst).zip (l.map Prod.snd) = l := by
  induction l with
  | nil => rfl
  | cons p rest ih => simp [ih]

theorem forall2_selfkey (fin : List DEntry)
    (hself : ∀ p ∈ fin, keyOf p.2 = .ok p.1) :
    List.Forall₂ (fun c k => keyOf c = .ok k)
      (fin.map Prod.snd) (fin.map Prod.fst) := by
  induction fin with
  | nil => exact .nil
  | cons p rest ih =>
    exact .cons (hself p (List.mem_cons_self _ _))
      (ih fun q hq => hself q (List.mem_cons_of_mem _ hq))

theorem dedupe_claims_eq (L R : List Json) (h : dedupe_claims L = .ok R) :
    ∃ fin, dedupeFold [] L = .ok fin ∧ R = fin.map Prod.snd := by
  have h' : (dedupeFold [] L).bind (fun fin => .ok (fin.map Prod.snd)) = .ok R := h
  obtain ⟨fin, hf, h2⟩ := exceptBind_ok _ _ _ h'
  exact ⟨fin, hf, (Except.ok.inj h2).symm⟩

/-- Two claims denoting the same commitment with citation sets {3,7} and
    {7,9}, and their expected merge. -/
def dupClaimA : Json :=
  .obj [("company", .str "甲公司"), ("claim_text", .str "2030 年減碳 30%"),
    ("topic", .str "climate"), ("metric", .str "GHG"),
    ("source_citations", .arr [.num 3, .num 7]),
    ("source_chunks", .arr [.str "chunk one"])]

def dupClaimB : Json :=
  .obj [("company", .str "甲公司"), ("claim_text", .str "2030 年減碳 30%"),
    ("topic", .str "climate"), ("metric", .str "GHG"),
    ("source_citations", .arr [.num 7, .num 9]),
    ("source_chunks", .arr [.str "chunk two"])]

def dupMerged : Json :=
  .obj [("company", .str "甲公司"), ("claim_text", .str "2030 年減碳 30%"),
    ("topic", .str "climate"), ("metric", .str "GHG"),
    ("source_citations", .arr [.str "3", .str "7", .str "9"]),
    ("source_chunks", .arr [.str "chunk one", .str "chunk two"])]

/-- A claim with a different dedup key (different claim text). -/
def soloClaim : Json :=
  .obj [("company", .str "甲公司"), ("claim_text", .str "2025 年再生能源 20%"),
    ("topic", .str "energy"), ("metric", .str "renewable"),
    ("source_citations", .arr [.num 5]), ("source_chunks", .arr [])]

/-- C3: deduplication is idempotent — whenever `dedupe_claims` succeeds, its
    output deduplicates to itself, unchanged as a value. -/
theorem C3_dedupe_idempotent (L R : List Json) (h : dedupe_claims L = .ok R) :
    dedupe_claims R = .ok R := by
  obtain ⟨fin, hf, rfl⟩ := dedupe_claims_eq L R h
  obtain ⟨ks, hks⟩ := dedupeFold_keys_exist L [] fin hf
  have hkeys : fin.map Prod.fst = firstKeysFrom [] ks := by
    simpa using dedupeFold_keys L ks hks [] fin hf
  have hnd : (fin.map Prod.fst).Nodup := by
    rw [hkeys]
    exact (firstKeysFrom_nodup ks []).1
  have hself := dedupeFold_selfkey L [] fin hf (by simp)
  have hrun := dedupeFold_nomerge (fin.map Prod.snd) (fin.map Prod.fst)
    (forall2_selfkey fin hself) hnd [] (fun _ _ => rfl)
  rw [zip_fst_snd] at hrun
  show (dedupeFold [] (fin.map Prod.snd)).bind
      (fun fin' => .ok (fin'.map Prod.snd)) = .ok (fin.map Prod.snd)
  rw [hrun]
  rfl

/-- Concrete instantiation of C3: deduplicating the already-deduplicated
    merge of the two duplicate claims returns it unchanged. -/
theorem C3_dedupe_idempotent_witness :
    dedupe_claims [dupMerged] = .ok [dupMerged] :=
  C3_dedupe_idempotent [dupClaimA, dupClaimB] [dupMerged] rfl

/-- C4: the single left-to-right scan of `dedupe_claims`.  (1) Merging a
    later duplicate rewrites only `source_citations` — to the sorted
    set-union of the stringified old and new citation entries — and
    `source_chunks` — to the Python `+` of the old and new chunk values —
    leaving every other field of the canonical record unchanged; (2) on list
    chunk values that `+` is concatenation, old before new; (3) the output is
    the stored entries of the fold, its keys are the claims' dedup keys in
    first-occurrence order, and the entry stored under a key is the left fold
    of `mergeClaims` over that key's claims, starting from the first one;
    (4) concretely, citation sets {3,7} and {7,9} merge to {3,7,9} with the
    chunks concatenated in order. -/
theorem C4_dedupe_scan_spec :
    (∀ (ed cd : List (String × Json)) (citesOld citesNew : List Json)
        (chunkSum : Json),
      pyIterList (dGetD ed "source_citations" (.arr [])) = .ok citesOld →
      pyIterList (dGetD cd "source_citations" (.arr [])) = .ok citesNew →
      pyAdd (dGetD ed "source_chunks" (.arr []))
        (if pyTruthy (dGetD cd "source_chunks" (.arr [])) then
          dGetD cd "source_chunks" (.arr []) else .arr []) = .ok chunkSum →
      ∃ kvs', mergeClaims (.obj ed) (.obj cd) = .ok (.obj kvs')
        ∧ dGet kvs' "source_citations" =
            some (.arr ((sortedSet (citesOld.map pyStr ++ citesNew.map pyStr)).map .str))
        ∧ dGet kvs' "source_chunks" = some chunkSum
        ∧ ∀ f, f ≠ "source_citations" → f ≠ "source_chunks" →
            dGet kvs' f = dGet ed f)
    ∧ (∀ a b : List Json, pyAdd (.arr a) (.arr b) = .ok (.arr (a ++ b)))
    ∧ (∀ L R, dedupe_claims L = .ok R →
        ∃ ks fin, List.Forall₂ (fun c k => keyOf c = .ok k) L ks
          ∧ dedupeFold [] L = .ok fin ∧ R = fin.map Prod.snd
          ∧ fin.map Prod.fst = firstKeysFrom [] ks
          ∧ ∀ (k : CKey) (c0 : Json) (rest : List Json),
              groupOf (ks.zip L) k = c0 :: rest →
              ∃ e', List.foldlM mergeClaims c0 rest = .ok e' ∧
                lookupEntry fin k = some e')
    ∧ dedupe_claims [dupClaimA, dupClaimB] = .ok [dupMerged] := by
  refine ⟨?_, fun _ _ => rfl, ?_, rfl⟩
  · intro ed cd citesOld citesNew chunkSum ho hn ha
    have hconv : dGetD (dictInsert ed "source_citations"
        (.arr ((sortedSet (citesOld.map pyStr ++ citesNew.map pyStr)).map .str)))
        "source_chunks" (.arr []) = dGetD ed "source_chunks" (.arr []) := by
      rw [dGetD, dGetD, dGet_dictInsert_other _ _ _ _ (by decide)]
    have hrun : mergeClaims (.obj ed) (.obj cd) =
        .ok (.obj (dictInsert (dictInsert ed "source_citations"
          (.arr ((sortedSet (citesOld.map pyStr ++ citesNew.map pyStr)).map .str)))
          "source_chunks" chunkSum)) := by
      have hdef : mergeClaims (.obj ed) (.obj cd) =
          ((pyIterList (dGetD ed "source_citations" (.arr []))).bind
            fun citesOld =>
              (pyIterList (dGetD cd "source_citations" (.arr []))).bind
                fun citesNew =>
                  (pyAdd
                    (dGetD (dictInsert ed "source_citations"
                      (.arr ((sortedSet (citesOld.map pyStr ++ citesNew.map pyStr)).map .str)))
                      "source_chunks" (.arr []))
                    (if pyTruthy (dGetD cd "source_chunks" (.arr [])) then
                      dGetD cd "source_chunks" (.arr []) else .arr [])).bind
                    fun sum =>
                      .ok (.obj (dictInsert
                        (dictInsert ed "source_citations"
                          (.arr ((sortedSet (citesOld.map pyStr ++ citesNew.map pyStr)).map .str)))
                        "source_chunks" sum))) := rfl
      rw [hdef, ho, hn]
      show (pyAdd
          (dGetD (dictInsert ed "source_citations"
            (.arr ((sortedSet (citesOld.map pyStr ++ citesNew.map pyStr)).map .str)))
            "source_chunks" (.arr []))
          (if pyTruthy (dGetD cd "source_chunks" (.arr [])) then
            dGetD cd "source_chunks" (.arr []) else .arr [])).bind
          (fun sum =>
            Except.ok (Json.obj (dictInsert
              (dictInsert ed "source_citations"
                (.arr ((sortedSet (citesOld.map pyStr ++ citesNew.map pyStr)).map .str)))
              "source_chunks" sum))) = _
      rw [hconv, ha]
      rfl
    refine ⟨_, hrun, ?_, dGet_dictInsert_self _ _ _, ?_⟩
    · rw [dGet_dictInsert_other _ _ _ _ (by decide), dGet_dictInsert_self]
    · intro f hf1 hf2
      rw [dGet_dictInsert_other _ _ _ _ hf2, dGet_dictInsert_other _ _ _ _ hf1]
  · intro L R h
    obtain ⟨fin, hf, rfl⟩ := dedupe_claims_eq L R h
    obtain ⟨ks, hks⟩ := dedupeFold_keys_exist L [] fin hf
    refine ⟨ks, fin, hks, hf, rfl, ?_, ?_⟩
    · simpa using dedupeFold_keys L ks hks [] fin hf
    · intro k c0 rest hg
      exact ((dedupeFold_char k L ks hks [] fin hf).2 rfl).2 c0 rest hg

/-- Concrete instantiation of C4: the scan characterization applied to the
    two duplicate claims with citation sets {3,7} and {7,9}. -/
theorem C4_dedupe_scan_spec_witness :
    ∃ ks fin, List.Forall₂ (fun c k => keyOf c = .ok k) [dupClaimA, dupClaimB] ks
      ∧ dedupeFold [] [dupClaimA, dupClaimB] = .ok fin
      ∧ [dupMerged] = fin.map Prod.snd
      ∧ fin.map Prod.fst = firstKeysFrom [] ks
      ∧ ∀ (k : CKey) (c0 : Json) (rest : List Json),
          groupOf (ks.zip [dupClaimA, dupClaimB]) k = c0 :: rest →
          ∃ e', List.foldlM mergeClaims c0 rest = .ok e' ∧
            lookupEntry fin k = some e' :=
  C4_dedupe_scan_spec.2.2.1 [dupClaimA, dupClaimB] [dupMerged] rfl

/-- C10: a claim whose dedup key occurs exactly once in the list appears in
    the output of `dedupe_claims` unchanged as a value (a deep copy of the
    input claim) — in particular its `source_citations` are neither
    stringified nor re-sorted; merge normalization touches only claims whose
    key occurs more than once. -/
theorem C10_unique_key_claim_unchanged (L R : List Json) (c : Json) (k : CKey)
    (ks : List CKey) (h : dedupe_claims L = .ok R)
    (hks : List.Forall₂ (fun c k => keyOf c = .ok k) L ks)
    (huniq : groupOf (ks.zip L) k = [c]) :
    c ∈ R := by
  obtain ⟨fin, hf, rfl⟩ := dedupe_claims_eq L R h
  obtain ⟨e', hfold, hlook⟩ :=
    ((dedupeFold_char k L ks hks [] fin hf).2 rfl).2 c [] huniq
  have hce : c = e' := Except.ok.inj (hfold : Except.ok c = .ok e')
  rw [← hce] at hlook
  exact List.mem_map.mpr ⟨(k, c), lookupEntry_some_mem fin k c hlook, rfl⟩

/-- Concrete instantiation of C10: in a list where `soloClaim`'s key occurs
    once (beside an unrelated duplicate pair), `soloClaim` appears in the
    dedup output exactly as it went in, integer citations intact. -/
theorem C10_unique_key_claim_unchanged_witness :
    soloClaim ∈ ([dupMerged, soloClaim] : List Json) :=
  C10_unique_key_claim_unchanged [dupClaimA, soloClaim, dupClaimB]
    [dupMerged, soloClaim] soloClaim
    ⟨.sStr "甲公司", "2025 年再生能源 20%", .sStr "energy", .sStr "renewable"⟩
    [⟨.sStr "甲公司", "2030 年減碳 30%", .sStr "climate", .sStr "GHG"⟩,
     ⟨.sStr "甲公司", "2025 年再生能源 20%", .sStr "energy", .sStr "renewable"⟩,
     ⟨.sStr "甲公司", "2030 年減碳 30%", .sStr "climate", .sStr "GHG"⟩]
    rfl (.cons rfl (.cons rfl (.cons rfl .nil))) rfl

end AgentA
